import Mathlib

/-!
# Verification of the SparseX CSX encoder pipeline

This file gives a shallow embedding of the CSX encoder core of the sparsex
repository (src/csx/csx.cc, src/patterns/drle.cc,
src/include/sparsex/internals/Delta.hpp,
src/include/sparsex/internals/CsxManager.hpp) and proves or refutes the
frozen specification claims about it.

Machine integers are modelled as Nat; wherever the C code relies on
wrap-around or truncation the embedding applies explicit `% 2 ^ w`.
C assertions are modelled by returning `Option` values: `none` means the
assertion fired and the program aborted.
-/

namespace Sparsex

/-! ## Variable-length integer codec (src/csx/csx.cc, lines 40-103)

The writer `da_put_ul` emits base-128 little-endian bytes: the low 7 bits of
the value, with bit 7 set as a continuation flag, stopping after the byte
whose value is below 128.
-/

/-- Loop of `da_put_ul` with an explicit structural bound on the number of
iterations (the value shrinks by a factor 128 per iteration, so a bound
equal to the value is always enough; the bound keeps the function
computable by the kernel).  The faithful recurrence is proved as
`da_put_ul_eq` below. -/
def da_put_ulGo : Nat → Nat → List Nat
  | 0, val => [val % 128]
  | fuel + 1, val =>
    if val < 128 then [val % 128]
    else (val % 128 + 128) :: da_put_ulGo fuel (val / 128)

/-- Embedding of `da_put_ul` (csx.cc:41-55).  Returns the list of bytes
appended to the dynarray, in emission order.  Each iteration stores
`val & 127`, stops if `val < 128`, otherwise sets the continuation bit and
shifts `val` right by 7. -/
def da_put_ul (val : Nat) : List Nat :=
  da_put_ulGo val val

/-- Embedding of the loop inside the `uc_get_ul` macro (csx.cc:80-103).

The C macro is:
```
_val = u8_get(ptr);
if (_val > 127) {
    unsigned shift = 7;
    unsigned long _uc;
    _val -= 128;
    for (;;) {
        uc = u8_get(ptr);          // NOTE: assigns the outer variable uc
        if ( _uc > 127 ) {         // but tests the uninitialized _uc
            _uc -= 128;
            _val += (_uc << shift);
            shift += 7;
        } else {
            _val += (_uc << shift);
            break;
        }
    }
}
```
Each loop iteration consumes one byte from the stream (into the dead
variable `uc`), while the branch is driven by `_uc`, which is never
initialized from the stream.  The parameter `g` is the (arbitrary)
initial contents of the uninitialized `_uc`.  The function returns the
computed value together with the unconsumed suffix of the stream; on an
empty stream the C code would read out of bounds, the model returns the
accumulator. -/
def uc_get_loop (g shift val : Nat) : List Nat → Nat × List Nat
  | [] => (val, [])
  | _b :: rest =>
    if 127 < g then uc_get_loop (g - 128) (shift + 7) (val + (g - 128) * 2 ^ shift) rest
    else (val + g * 2 ^ shift, rest)

/-- Embedding of the `uc_get_ul` macro (csx.cc:80-103): read the first byte;
if it is below 128 the value is that byte, otherwise subtract 128 and enter
the (buggy) continuation loop.  `g` is the initial contents of the
uninitialized local `_uc`. -/
def uc_get_ul (bytes : List Nat) (g : Nat) : Nat × List Nat :=
  match bytes with
  | [] => (0, [])
  | b :: rest => if 127 < b then uc_get_loop g 7 (b - 128) rest else (b, rest)

/-- The intended varint reader, written from the spec sentence
Varint read: inverse (spec section 4.1).  Used to state what the claim
expects `uc_get_ul` to compute. -/
def specVarintRead : List Nat → Nat
  | [] => 0
  | b :: rest => if b < 128 then b % 128 else b % 128 + 128 * specVarintRead rest

/-! ## Delta width selection (src/include/sparsex/internals/Delta.hpp, 28-41)

`GetDeltaSize` assigns `val` to each member of a union of unsigned widths
and compares the truncated value back against `val`; it returns the first
width that holds the value. -/

/-- Embedding of `GetDeltaSize` (Delta.hpp:28-41).  The C code assigns the
value to a `uint8_t`/`uint16_t`/`uint32_t` union member and tests whether
the truncation preserved it; truncation is modelled by `% 2 ^ (8 * w)`. -/
def GetDeltaSize (val : Nat) : Nat :=
  if val % 2 ^ 8 = val then 1
  else if val % 2 ^ 16 = val then 2
  else if val % 2 ^ 32 = val then 4
  else 8

/-! ## Iteration orders and matrix elements

The SPM element model lives in spm.h, which is not part of the sources at
hand; the following definitions are therefore modelled from the spec
(sections 3 and 4.2): an element is either a single nonzero or a pattern
instance whose anchor, type, delta and size determine the coordinates it
covers. -/

/-- Modelled from the spec: the candidate iteration orders of section 3
(the enum SpmIterOrder of spm.h is not under src/).  The NONE member is
represented by Option at the use sites. -/
inductive SpmIterOrder where
  | horizontal
  | vertical
  | diagonal
  | revDiagonal
  | blockRow (k : Nat)
  | blockCol (k : Nat)
deriving DecidableEq, Repr

/-- Modelled from the spec: isBlockType returns the block alignment of a
block type and 0 for the linear types (spm.h is not under src/; drle.cc
uses the result both as a boolean and as the alignment). -/
def isBlockType : SpmIterOrder → Nat
  | .blockRow k => k
  | .blockCol k => k
  | _ => 0

/-- Modelled from the spec: the injective encoding of (type, delta) into a
pattern id (section 3, Pattern descriptor; the concrete GetPatternId lives
in spm.h which is not under src/).  Horizontal uses the delta directly and
the other types use disjoint numeric ranges; block types use the
other-dimension as the distinguishing key. -/
def patternIdOf : SpmIterOrder → Nat → Nat
  | .horizontal, d => d
  | .vertical, d => 10000 + d
  | .diagonal, d => 20000 + d
  | .revDiagonal, d => 30000 + d
  | .blockRow k, other => 40000 + 1000 * k + other
  | .blockCol k, other => 50000 + 1000 * k + other

/-- A row element of a sparse partition: either a plain nonzero at column
x, or a pattern instance anchored at x with its type, its delta (the
other-dimension for block patterns) and the covered values in run order.
The pattern size of the C object is the length of the value list. -/
inductive SpmRowElem (α : Type) where
  | plain (x : Nat) (v : α)
  | pat (x : Nat) (ptype : SpmIterOrder) (delta : Nat) (vals : List α)
deriving DecidableEq, Repr

/-- Size of an element as counted by the encoder: 1 for a plain nonzero,
the pattern size for a pattern instance. -/
def elemSize : SpmRowElem α → Nat
  | .plain _ _ => 1
  | .pat _ _ _ vals => vals.length

/-- The numeric values covered by an element, in run order. -/
def elemVals : SpmRowElem α → List α
  | .plain _ v => [v]
  | .pat _ _ _ vals => vals

/-- Modelled from the spec: getNextX of the pattern objects (spm.h is not
under src/).  A DeltaRLE pattern advances by its delta along the current
iteration axis; a block pattern covers consecutive positions of the
block-aligned sweep, so it advances by 1 (section 3, Pattern instance). -/
def getNextX (ptype : SpmIterOrder) (delta : Nat) (x : Nat) : Nat :=
  if isBlockType ptype ≠ 0 then x + 1 else x + delta

/-! ## Delta and run-length encoding (src/patterns/drle.cc, lines 17-68) -/

/-- Pairwise difference pass shared by the two DeltaEncode variants:
subtract the running previous value from each entry (uint64 subtraction;
all call sites pass column sequences that are sorted, so the difference is
nonnegative and Nat subtraction is exact). -/
def DeltaEncodeGo (prev : Nat) : List Nat → List Nat
  | [] => []
  | y :: r => (y - prev) :: DeltaEncodeGo y r

/-- Embedding of the DeltaEncode template of drle.cc:23-40: the first
element is kept as is, each later element is replaced by its difference
from its predecessor. -/
def DeltaEncodeV : List Nat → List Nat
  | [] => []
  | x :: r => x :: DeltaEncodeGo x r

/-- A run of the run-length encoder (drle.cc:17-21): freq occurrences of
val. -/
structure RLE where
  freq : Nat
  val : Nat
deriving DecidableEq, Repr

/-- Loop of RLEncode (drle.cc:55-66): extend the current run while the
next element equals its value, otherwise push it and start a fresh run. -/
def RLEncodeGo (cur : RLE) : List Nat → List RLE
  | [] => [cur]
  | y :: r => if cur.val ≠ y then cur :: RLEncodeGo ⟨1, y⟩ r
              else RLEncodeGo ⟨cur.freq + 1, cur.val⟩ r

/-- Embedding of RLEncode (drle.cc:42-68).  The C code dereferences the
first element unconditionally; every call site guards against an empty
input, which the model maps to the empty run list. -/
def RLEncode : List Nat → List RLE
  | [] => []
  | x :: r => RLEncodeGo ⟨1, x⟩ r

/-! ## Pattern statistics (src/patterns/drle.cc, lines 70-149)

DeltaRLE::Stats is a std::map from delta value to an entry; operator
access default-constructs absent entries, so the model uses a total
function from Nat with zero defaults. -/

/-- One entry of a statistics table: covered nonzeros and number of
pattern instances for one delta value. -/
structure StatsEntry where
  nnz : Nat
  npatterns : Nat
deriving DecidableEq, Repr

/-- Add freq covered nonzeros and one pattern instance to the entry of
delta value v (the two increments of drle.cc:87-88). -/
def bumpStats (stats : Nat → StatsEntry) (v freq : Nat) : Nat → StatsEntry :=
  fun d => if d = v then ⟨(stats v).nnz + freq, (stats v).npatterns + 1⟩ else stats d

/-- The run loop of updateStats (drle.cc:85-90): runs whose frequency
reaches min_limit are credited, the others are skipped. -/
def statsAccum (minLimit : Nat) (stats : Nat → StatsEntry) : List RLE → Nat → StatsEntry
  | [] => stats
  | r :: rs => statsAccum minLimit (if minLimit ≤ r.freq then bumpStats stats r.val r.freq else stats) rs

/-- The run loop of updateStatsBlock (drle.cc:105-125), threading the
unit_start position: only runs of delta 1 are candidates; the run length
plus one is trimmed by the distance to the previous block boundary, and
the result is credited at its other-dimension when that is at least 2. -/
def statsBlockAccum (blockAlign : Nat) (unitStart : Nat) (stats : Nat → StatsEntry) :
    List RLE → Nat → StatsEntry
  | [] => stats
  | r :: rs =>
    let us1 := unitStart + r.val
    let stats1 :=
      if r.val = 1 then
        let nrElem0 := r.freq + 1
        let skipFront := if us1 = 1 then 0 else (us1 - 2) % blockAlign
        let nrElem := if skipFront < nrElem0 then nrElem0 - skipFront else 0
        let otherDim := nrElem / blockAlign
        if 2 ≤ otherDim then bumpStats stats otherDim (otherDim * blockAlign) else stats
      else stats
    statsBlockAccum blockAlign (us1 + r.val * (r.freq - 1)) stats1 rs

/-- Embedding of updateStatsBlock (drle.cc:94-127). -/
def updateStatsBlock (blockAlign : Nat) (xs : List Nat) (stats : Nat → StatsEntry) :
    Nat → StatsEntry :=
  if xs = [] then stats
  else statsBlockAccum blockAlign 0 stats (RLEncode (DeltaEncodeV xs))

/-- Embedding of updateStats (drle.cc:70-92): dispatch to the block
variant when the current iteration order is a block type, otherwise credit
every delta run reaching min_limit. -/
def updateStats (blockAlign minLimit : Nat) (xs : List Nat) (stats : Nat → StatsEntry) :
    Nat → StatsEntry :=
  if blockAlign ≠ 0 then updateStatsBlock blockAlign xs stats
  else if xs = [] then stats
  else statsAccum minLimit stats (RLEncode (DeltaEncodeV xs))

/-- Row pass of generateStats (drle.cc:137-146): plain elements push their
column coordinate, a pattern element flushes the collected vector through
updateStats (which clears it), and the row end flushes the remainder. -/
def generateStatsRow (blockAlign minLimit : Nat) (xs : List Nat) (stats : Nat → StatsEntry) :
    List (SpmRowElem α) → Nat → StatsEntry
  | [] => updateStats blockAlign minLimit xs stats
  | .plain x _ :: rest => generateStatsRow blockAlign minLimit (xs ++ [x]) stats rest
  | .pat _ _ _ _ :: rest =>
    generateStatsRow blockAlign minLimit [] (updateStats blockAlign minLimit xs stats) rest

/-- Embedding of generateStats (drle.cc:129-149) over the rows of the
transformed partition. -/
def generateStats (blockAlign minLimit : Nat) (stats : Nat → StatsEntry) :
    List (List (SpmRowElem α)) → Nat → StatsEntry
  | [] => stats
  | row :: rows =>
    generateStats blockAlign minLimit (generateStatsRow blockAlign minLimit [] stats row) rows

/-! ## Per-type encoder (src/patterns/drle.cc, lines 151-373)

doEncode walks the delta run-length encoding of a gathered column vector,
emitting pattern elements for runs whose delta was selected for encoding
and plain elements otherwise. -/

/-- The trailing plain-element loop of doEncode (drle.cc:205-211): emit
freq plain elements, stepping the column by delta each time and consuming
one value per element. -/
def plainsEmit (delta col : Nat) : Nat → List α → List (SpmRowElem α)
  | 0, _ => []
  | _ + 1, [] => []
  | f + 1, v :: vs => .plain (col + delta) v :: plainsEmit delta (col + delta) f vs

/-- The pattern while-loop of doEncode (drle.cc:184-202) followed by the
plain-element loop for the remaining frequency.  Each iteration takes a
chunk of min max_limit freq values, anchors a pattern element at
col + delta, and advances the column by delta times the chunk.

The loop guard in C is only min_limit less-or-equal freq; the model guard
adds 0 less-than min max_limit freq, which agrees with the C code whenever
the C loop terminates (with max_limit = 0 and freq at least min_limit the
C loop never terminates; the configuration defaults are 4 and 254).

The first Nat argument is a structural bound on the number of loop
iterations, keeping the function computable by the kernel; every
iteration removes at least one from freq, so doEncodePatLoop below passes
freq as the bound and the fuel branch is never reached (see
doEncodePatLoopGo_fuel). -/
def doEncodePatLoopGo (minLimit maxLimit delta : Nat) (stype : SpmIterOrder) :
    Nat → Nat → Nat → List α → List (SpmRowElem α) × Nat × List α
  | 0, col, freq, vs => (plainsEmit delta col freq vs, col + delta * freq, vs.drop freq)
  | fuel + 1, col, freq, vs =>
    if minLimit ≤ freq ∧ 0 < min maxLimit freq then
      let c := min maxLimit freq
      let e : SpmRowElem α := .pat (col + delta) stype delta (vs.take c)
      let r := doEncodePatLoopGo minLimit maxLimit delta stype fuel (col + delta * c) (freq - c)
        (vs.drop c)
      (e :: r.1, r.2)
    else
      (plainsEmit delta col freq vs, col + delta * freq, vs.drop freq)

/-- The pattern while-loop of doEncode (drle.cc:184-202) together with
the trailing plain-element emission, at the always-sufficient iteration
bound freq. -/
def doEncodePatLoop (minLimit maxLimit delta : Nat) (stype : SpmIterOrder) (col freq : Nat)
    (vs : List α) : List (SpmRowElem α) × Nat × List α :=
  doEncodePatLoopGo minLimit maxLimit delta stype freq col freq vs

/-- Processing of one delta run by doEncode (drle.cc:179-212): runs whose
delta is in the DeltasToEncode set go through the pattern loop, all other
runs are emitted as plain elements one per step of the delta. -/
def doEncodeRun (dset : List Nat) (minLimit maxLimit : Nat) (stype : SpmIterOrder) (col : Nat)
    (r : RLE) (vs : List α) : List (SpmRowElem α) × Nat × List α :=
  if r.val ∈ dset then doEncodePatLoop minLimit maxLimit r.val stype col r.freq vs
  else (plainsEmit r.val col r.freq vs, col + r.val * r.freq, vs.drop r.freq)

/-- The run loop of doEncode, threading the current column, the value
iterator and the output row. -/
def doEncodeGo (dset : List Nat) (minLimit maxLimit : Nat) (stype : SpmIterOrder) (col : Nat)
    (vs : List α) (acc : List (SpmRowElem α)) : List RLE → List (SpmRowElem α)
  | [] => acc
  | r :: rs =>
    let t := doEncodeRun dset minLimit maxLimit stype col r vs
    doEncodeGo dset minLimit maxLimit stype t.2.1 t.2.2 (acc ++ t.1) rs

/-- Embedding of doEncode (drle.cc:155-216) for the non-block types: run
the delta run-length encoding of the column vector and process every run,
appending to the output row. -/
def doEncode (dset : List Nat) (minLimit maxLimit : Nat) (stype : SpmIterOrder) (xs : List Nat)
    (vs : List α) (newrow : List (SpmRowElem α)) : List (SpmRowElem α) :=
  doEncodeGo dset minLimit maxLimit stype 0 vs newrow (RLEncode (DeltaEncodeV xs))

/-- The run loop of doEncodeBlock (drle.cc:242-341).  The value iterator
vi of the C code is modelled as an index into the unchanging value list
(the annexation step backs it up by one); out-of-range reads, which the
call sites exclude, give the default value.  For a qualifying run of
delta 1 the aligned middle is emitted as block patterns of other-dimension
neb / align; when the run does not start at column 1 the previously
emitted element is popped and reabsorbed.  All other runs are emitted as
plain elements. -/
def doEncodeBlockGo [Inhabited α] (dset : List Nat) (maxLimit blockAlign : Nat)
    (stype : SpmIterOrder) (col vi : Nat) (vs : List α) (acc : List (SpmRowElem α)) :
    List RLE → List (SpmRowElem α)
  | [] => acc
  | r :: rs =>
    let col1 := col + r.val
    let sf0 := if col1 = 1 then 0
               else (let m := (col1 - 2) % blockAlign; if m ≠ 0 then blockAlign - m else 0)
    let ne0 := if col1 = 1 then r.freq else r.freq + 1
    let ne1 := if sf0 < ne0 then ne0 - sf0 else 0
    let sb0 := ne1 % blockAlign
    let ne2 := if sb0 < ne1 then ne1 - sb0 else 0
    if r.val = 1 ∧ ne2 / blockAlign ∈ dset ∧ 2 * blockAlign ≤ ne2 then
      let rleStart := if col1 ≠ 1 then col1 - 1 else col1
      let acc1 := if col1 ≠ 1 then acc.dropLast else acc
      let vi1 := if col1 ≠ 1 then vi - 1 else vi
      let frontEls := (List.range sf0).map
        (fun i => SpmRowElem.plain (rleStart + i) (vs.getD (vi1 + i) default))
      let vi2 := vi1 + sf0
      let maxAl := maxLimit / (2 * blockAlign) * (2 * blockAlign)
      let nrb0 := ne2 / maxAl
      let neb := min maxAl ne2
      let nrb := if nrb0 = 0 then 1 else nrb0
      let sb1 := if nrb0 = 0 then sb0 else sb0 + (ne2 - neb * nrb0)
      let blocks := (List.range nrb).map
        (fun i => SpmRowElem.pat (rleStart + sf0 + i * neb) stype (neb / blockAlign)
          ((vs.drop (vi2 + i * neb)).take neb))
      let vi3 := vi2 + neb * nrb
      let backEls := (List.range sb1).map
        (fun i => SpmRowElem.plain (rleStart + sf0 + neb * nrb + i) (vs.getD (vi3 + i) default))
      doEncodeBlockGo dset maxLimit blockAlign stype (col1 + r.val * (r.freq - 1)) (vi3 + sb1)
        vs (acc1 ++ frontEls ++ blocks ++ backEls) rs
    else
      let plains := (List.range r.freq).map
        (fun i => SpmRowElem.plain (col1 + i * r.val) (vs.getD (vi + i) default))
      doEncodeBlockGo dset maxLimit blockAlign stype (col1 + r.val * (r.freq - 1)) (vi + r.freq)
        vs (acc ++ plains) rs

/-- Embedding of doEncodeBlock (drle.cc:219-347); min_limit is not
consulted by the block encoder. -/
def doEncodeBlock [Inhabited α] (dset : List Nat) (maxLimit blockAlign : Nat)
    (stype : SpmIterOrder) (xs : List Nat) (vs : List α) (newrow : List (SpmRowElem α)) :
    List (SpmRowElem α) :=
  doEncodeBlockGo dset maxLimit blockAlign stype 0 0 vs newrow (RLEncode (DeltaEncodeV xs))

/-- The dispatch at the top of doEncode (drle.cc:165-168): block types go
to doEncodeBlock. -/
def doEncodeDispatch [Inhabited α] (dset : List Nat) (minLimit maxLimit : Nat)
    (stype : SpmIterOrder) (xs : List Nat) (vs : List α) (newrow : List (SpmRowElem α)) :
    List (SpmRowElem α) :=
  if isBlockType stype ≠ 0 then doEncodeBlock dset maxLimit (isBlockType stype) stype xs vs newrow
  else doEncode dset minLimit maxLimit stype xs vs newrow

/-- Loop of EncodeRow (drle.cc:349-373): plain elements accumulate their
coordinates and values; a pattern element flushes the accumulation through
doEncode and is copied through unchanged; the row end flushes the rest. -/
def EncodeRowGo [Inhabited α] (dset : List Nat) (minLimit maxLimit : Nat) (stype : SpmIterOrder)
    (xs : List Nat) (vs : List α) (acc : List (SpmRowElem α)) :
    List (SpmRowElem α) → List (SpmRowElem α)
  | [] => if xs ≠ [] then doEncodeDispatch dset minLimit maxLimit stype xs vs acc else acc
  | .plain x v :: rest =>
    EncodeRowGo dset minLimit maxLimit stype (xs ++ [x]) (vs ++ [v]) acc rest
  | e :: rest =>
    let acc1 := if xs ≠ [] then doEncodeDispatch dset minLimit maxLimit stype xs vs acc else acc
    EncodeRowGo dset minLimit maxLimit stype [] [] (acc1 ++ [e]) rest

/-- Embedding of EncodeRow (drle.cc:349-373). -/
def EncodeRow [Inhabited α] (dset : List Nat) (minLimit maxLimit : Nat) (stype : SpmIterOrder)
    (row : List (SpmRowElem α)) : List (SpmRowElem α) :=
  EncodeRowGo dset minLimit maxLimit stype [] [] [] row

/-! ## Decoder (src/patterns/drle.cc, lines 415-441) -/

/-- Loop of doDecode (drle.cc:423-428): emit one plain element per covered
value, advancing the position with getNextX. -/
def doDecodeLoop (ptype : SpmIterOrder) (delta : Nat) (x : Nat) : List α → List (SpmRowElem α)
  | [] => []
  | v :: vsr => .plain x v :: doDecodeLoop ptype delta (getNextX ptype delta x) vsr

/-- Embedding of doDecode (drle.cc:415-429) on a pattern element. -/
def doDecode (x : Nat) (ptype : SpmIterOrder) (delta : Nat) (vals : List α) :
    List (SpmRowElem α) :=
  doDecodeLoop ptype delta x vals

/-- Embedding of DecodeRow (drle.cc:431-441): pattern elements whose type
is the current iteration order are expanded, everything else is copied. -/
def DecodeRow (stype : SpmIterOrder) (row : List (SpmRowElem α)) : List (SpmRowElem α) :=
  row.flatMap fun e =>
    match e with
    | .pat x t d vals => if t = stype then doDecode x t d vals else [e]
    | p => [p]

/-! ## CSX assembler (src/csx/csx.cc, lines 105-359)

The control-stream constants live in ctl_ll.h, which is not under src/;
their values are modelled from the spec (sections 3 and 6.2): sizes are
one byte, the pattern flag occupies the low six bits of the flags byte,
bit 6 is the new-row marker and bit 7 the row-jump marker. -/

/-- Modelled from the spec: maximum unit size, one byte (section 3). -/
def CTL_SIZE_MAX : Nat := 255

/-- Modelled from the spec: upper bound of the six-bit pattern flag
(section 3, Pattern-flag map). -/
def CTL_PATTERNS_MAX : Nat := 63

/-- Modelled from the spec: bit position of the new-row marker
(section 6.2). -/
def CTL_NR_BIT : Nat := 6

/-- Modelled from the spec: bit position of the row-jump marker
(section 6.2). -/
def CTL_RJMP_BIT : Nat := 7

/-- Modelled from the spec: base of the numeric range reserved for
delta-list pattern ids (delta.h and ctl_ll.h are not under src/; only the
injectivity of the range matters to the claims). -/
def PID_DELTA_BASE : Nat := 60000

/-- The DeltaSize enum of delta.h (not under src/), with the widths of
Delta.hpp. -/
inductive DeltaSize where
  | u8
  | u16
  | u32
  | u64
deriving DecidableEq, Repr

/-- Numeric value of the enum member (consecutive, as in a plain C enum),
used by the pattern id computation 8 shifted by the enum value. -/
def DeltaSize.toEnum : DeltaSize → Nat
  | .u8 => 0
  | .u16 => 1
  | .u32 => 2
  | .u64 => 3

/-- Embedding of DeltaSize_getBytes of delta.h: the byte width of the
enum member. -/
def DeltaSize_getBytes : DeltaSize → Nat
  | .u8 => 1
  | .u16 => 2
  | .u32 => 4
  | .u64 => 8

/-- The getDeltaSize of delta.h used by csx.cc, with the same width
thresholds as GetDeltaSize of Delta.hpp but returning the enum. -/
def getDeltaSize (val : Nat) : DeltaSize :=
  if val % 2 ^ 8 = val then .u8
  else if val % 2 ^ 16 = val then .u16
  else if val % 2 ^ 32 = val then .u32
  else .u64

/-- Pattern bookkeeping entry of CsxManager (csx.cc PatInfo): the assigned
flag and the number of covered nonzeros. -/
structure PatInfo where
  flag : Nat
  nr : Nat
deriving DecidableEq, Repr

/-- One unit of the control stream: the flags byte, the size byte, the
row-jump varint bytes (empty when absent), the column-jump varint bytes,
and the packed fixed-width deltas with their byte width.  The byte stream
is the serialization of the unit list in order. -/
structure CtlUnit where
  flags : Nat
  size : Nat
  rjmp : List Nat
  ucol : List Nat
  dwidth : Nat
  deltas : List Nat
deriving DecidableEq, Repr

/-- The mutable state of CsxManager during MakeCsx: the control units
emitted so far, the values array content, and the cursor fields of the
class (csx.cc and CsxManager.hpp field list). -/
structure CsxState (α : Type) where
  ctl : List CtlUnit
  values : List α
  lastCol : Nat
  newRow : Bool
  emptyRows : Nat
  flagAvail : Nat
  patterns : List (Nat × PatInfo)
  rowJmps : Bool
deriving DecidableEq, Repr

/-- The initial manager state: counters zero, no rows seen (constructor of
CsxManager and the initializations at the top of MakeCsx). -/
def initCsxState : CsxState α :=
  ⟨[], [], 0, false, 0, 0, [], false⟩

/-- Lookup in the pattern map (std::map find keyed by pattern id). -/
def patLookup : List (Nat × PatInfo) → Nat → Option PatInfo
  | [], _ => none
  | p :: ps, k => if p.1 = k then some p.2 else patLookup ps k

/-- Add nnz covered nonzeros to the existing entry of a pattern id (the
else branch of GetFlag). -/
def patAddNr : List (Nat × PatInfo) → Nat → Nat → List (Nat × PatInfo)
  | [], _, _ => []
  | p :: ps, k, nnz =>
    if p.1 = k then (p.1, ⟨p.2.flag, p.2.nr + nnz⟩) :: ps else p :: patAddNr ps k nnz

/-- Embedding of CsxManager GetFlag (csx.cc:105-124): an unseen pattern id
receives the next flag, subject to the assertion ret at most
CTL_PATTERNS_MAX (modelled as none when it fails); a seen pattern id
returns its flag and accumulates its nonzero count. -/
def GetFlag (s : CsxState α) (patternId nnz : Nat) : Option (Nat × CsxState α) :=
  match patLookup s.patterns patternId with
  | none =>
    let ret := s.flagAvail
    if ret ≤ CTL_PATTERNS_MAX then
      some (ret, { s with flagAvail := ret + 1,
                          patterns := s.patterns ++ [(patternId, ⟨ret, nnz⟩)] })
    else none
  | some pi => some (pi.flag, { s with patterns := patAddNr s.patterns patternId nnz })

/-- Embedding of UpdateNewRow (csx.cc:221-234): on the first unit of a new
row set the CTL_NR bit; if empty rows were crossed also set the CTL_RJMP
bit, append the varint of empty_rows + 1 and reset the counter.  Returns
the updated flags byte, the appended row-jump bytes and the new state. -/
def UpdateNewRow (s : CsxState α) (flags : Nat) : Nat × List Nat × CsxState α :=
  if s.newRow = false then (flags, [], s)
  else
    let flags1 := flags ||| 2 ^ CTL_NR_BIT
    if s.emptyRows ≠ 0 then
      (flags1 ||| 2 ^ CTL_RJMP_BIT, da_put_ul (s.emptyRows + 1),
       { s with newRow := false, emptyRows := 0, rowJmps := true })
    else (flags1, [], { s with newRow := false })

/-- Embedding of AddXs (csx.cc:236-298): delta-encode the column vector
against last_col, pick the delta width from the maximum over the entries
after the leading jump, obtain the flag for the delta pattern id, emit the
two header bytes, the row jump, the column jump varint and the packed
deltas.  The switch over the delta width only handles the one, two and
four byte cases; its default branch is assert(false), modelled as none. -/
def AddXs (s : CsxState α) (xs : List Nat) : Option (CsxState α) :=
  let xsSize := xs.length
  let lastCol := xs.getLastD 0
  let dxs := DeltaEncodeGo s.lastCol xs
  let s1 := { s with lastCol := lastCol }
  let mx := if 1 < xsSize then (dxs.drop 1).foldl max 0 else 0
  let dsz := getDeltaSize mx
  let patId := (8 <<< dsz.toEnum) + PID_DELTA_BASE
  match GetFlag s1 (PID_DELTA_BASE + patId) xsSize with
  | none => none
  | some (flag, s2) =>
    if 0 < xsSize ∧ xsSize ≤ CTL_SIZE_MAX then
      match UpdateNewRow s2 flag with
      | (flags, rjmpBytes, s3) =>
        let ucolBytes := da_put_ul (dxs.headD 0)
        if 1 < xsSize then
          match dsz with
          | .u64 => none
          | _ => some { s3 with ctl := s3.ctl ++
                   [⟨flags, xsSize, rjmpBytes, ucolBytes, DeltaSize_getBytes dsz, dxs.drop 1⟩] }
        else
          some { s3 with ctl := s3.ctl ++
                   [⟨flags, xsSize, rjmpBytes, ucolBytes, DeltaSize_getBytes dsz, []⟩] }
    else none

/-- Modelled from the spec: ColIncreaseJmp of the pattern objects (spm.h
is not under src/), the last column covered by a pattern (section 4.6):
horizontal runs end at col + delta times (size - 1), the vertical and the
two diagonal types stay at the anchor, and a block ends at its last swept
position. -/
def ColIncreaseJmp (x : Nat) (ptype : SpmIterOrder) (delta size : Nat) : Nat :=
  match ptype with
  | .horizontal => x + delta * (size - 1)
  | .vertical => x
  | .diagonal => x
  | .revDiagonal => x
  | .blockRow _ => x + size - 1
  | .blockCol _ => x + size - 1

/-- Embedding of AddPattern (csx.cc:300-326): obtain the flag for the
pattern id, check the size assertion, emit the header, the row jump and
the column jump varint, and update last_col through ColIncreaseJmp. -/
def AddPattern (s : CsxState α) (x : Nat) (ptype : SpmIterOrder) (delta : Nat) (vals : List α)
    (jmp : Nat) : Option (CsxState α) :=
  let patSize := vals.length
  let patId := patternIdOf ptype delta
  match GetFlag s patId patSize with
  | none => none
  | some (flag, s1) =>
    if patSize + (if jmp ≠ 0 then 1 else 0) ≤ CTL_SIZE_MAX then
      let sizeByte := patSize + (if jmp ≠ 0 then 1 else 0)
      match UpdateNewRow s1 flag with
      | (flags, rjmpBytes, s2) =>
        let ujmp := if jmp ≠ 0 then jmp else x - s2.lastCol
        some { s2 with lastCol := ColIncreaseJmp x ptype delta patSize,
                       ctl := s2.ctl ++ [⟨flags, sizeByte, rjmpBytes, da_put_ul ujmp, 0, []⟩] }
    else none

/-- Embedding of PreparePat (csx.cc:329-359): flush a pending column
vector and return a zero jump (the live code always returns 0; the
alternative branch is commented out in the source). -/
def PreparePat (s : CsxState α) (xs : List Nat) : Option (CsxState α × Nat) :=
  if xs ≠ [] then (AddXs s xs).map (fun s1 => (s1, 0)) else some (s, 0)

/-- Loop of DoRow (csx.cc:192-214): a pattern element flushes the pending
columns, emits its unit and appends its values; a plain element first
flushes when the pending vector is full at CTL_SIZE_MAX, then pushes its
column and value.  Returns the state and the pending vector. -/
def DoRowGo (s : CsxState α) (xs : List Nat) :
    List (SpmRowElem α) → Option (CsxState α × List Nat)
  | [] => some (s, xs)
  | .pat x pt d vals :: rest =>
    match PreparePat s xs with
    | none => none
    | some (s1, jmp) =>
      match AddPattern s1 x pt d vals jmp with
      | none => none
      | some s2 => DoRowGo { s2 with values := s2.values ++ vals } [] rest
  | .plain x v :: rest =>
    if xs.length = CTL_SIZE_MAX then
      match AddXs s xs with
      | none => none
      | some s1 => DoRowGo { s1 with values := s1.values ++ [v] } [x] rest
    else DoRowGo { s with values := s.values ++ [v] } (xs ++ [x]) rest

/-- Embedding of DoRow (csx.cc:186-218): reset last_col to 1, walk the
row, and flush any pending columns at the end. -/
def DoRow (s : CsxState α) (row : List (SpmRowElem α)) : Option (CsxState α) :=
  match DoRowGo { s with lastCol := 1 } [] row with
  | none => none
  | some (s1, xs) => if xs ≠ [] then AddXs s1 xs else some s1

/-- Row loop of MakeCsx (csx.cc:144-167): an empty row is absorbed into
new_row when it is the leading row and into the empty-row counter
otherwise; a nonempty row is emitted by DoRow and marks new_row. -/
def MakeCsxGo (s : CsxState α) : List (List (SpmRowElem α)) → Option (CsxState α)
  | [] => some s
  | row :: rest =>
    if row.isEmpty then
      if s.newRow = false then MakeCsxGo { s with newRow := true } rest
      else MakeCsxGo { s with emptyRows := s.emptyRows + 1 } rest
    else
      match DoRow s row with
      | none => none
      | some s1 => MakeCsxGo { s1 with newRow := true } rest

/-- The assembled output of MakeCsx: the control units, the values array
and the row-jump marker. -/
structure CsxOut (α : Type) where
  ctl : List CtlUnit
  values : List α
  rowJmps : Bool
deriving DecidableEq, Repr

/-- Embedding of MakeCsx (csx.cc:126-178) over the rows of the final
partition. -/
def MakeCsx (rows : List (List (SpmRowElem α))) : Option (CsxOut α) :=
  (MakeCsxGo initCsxState rows).map (fun s => ⟨s.ctl, s.values, s.rowJmps⟩)

/-! ## Byte serialization of the control stream -/

/-- Little-endian fixed-width bytes of a value (the Copy casts of
csx.cc:282-290 and the layout of the dynarray). -/
def fixedLE (w v : Nat) : List Nat :=
  (List.range w).map (fun i => v / 2 ^ (8 * i) % 256)

/-- Zero padding needed to align an offset up to a multiple of w
(dynarray_alloc_nr_aligned). -/
def padTo (off w : Nat) : Nat :=
  (w - off % w) % w

/-- Serialization of one control unit at a given stream offset: flags
byte, size byte, row-jump varint, column-jump varint, then, when deltas
are present, alignment padding and the packed deltas. -/
def serializeUnit (off : Nat) (u : CtlUnit) : List Nat :=
  let head := u.flags :: u.size :: (u.rjmp ++ u.ucol)
  if u.deltas.isEmpty then head
  else head ++ List.replicate (padTo (off + head.length) u.dwidth) 0
            ++ u.deltas.flatMap (fixedLE u.dwidth)

/-- Serialization of a unit list, threading the stream offset. -/
def ctlBytesGo (off : Nat) : List CtlUnit → List Nat
  | [] => []
  | u :: us =>
    let b := serializeUnit off u
    b ++ ctlBytesGo (off + b.length) us

/-- The byte image of the control stream. -/
def ctlBytes (us : List CtlUnit) : List Nat :=
  ctlBytesGo 0 us

/-- Sum of the size bytes over the units of a control stream. -/
def sumSizes (us : List CtlUnit) : Nat :=
  (us.map (fun u => u.size)).sum

/-- Total nonzero count of a partition given as rows of elements. -/
def nnzRows (rows : List (List (SpmRowElem α))) : Nat :=
  (rows.map (fun row => (row.map elemSize).sum)).sum

/-! ## Planner loop (src/patterns/drle.cc, lines 482-650)

The matrix content and the statistics numbers are abstracted: the type σ
stands for the partition, score for the composite
genAllStats-getTypeScore computation (the per-type sum of nnz minus
npatterns over surviving entries), encStep for the effect of Encode on
the partition.  The control structure is taken verbatim from the source:
genAllStats fills the statistics map only for non-ignored types
(drle.cc:575-577), chooseType takes the first strict maximum over that
map starting from 0 (drle.cc:633-650, so a best score of 0 yields NONE),
and Encode always adds the encoded type to the ignore set
(drle.cc:412). -/

/-- The planner-visible state: the partition and the ignore bitset over
the N candidate iteration orders. -/
structure DrleState (σ : Type) (N : Nat) where
  spm : σ
  xformsIgnore : Finset (Fin N)
deriving DecidableEq

/-- The statistics map rebuilt by genAllStats (drle.cc:548-602): one
entry per non-ignored candidate type, in type order (std::map iterates
in key order), carrying the score that getTypeScore computes for it. -/
def genAllStats (score : σ → Fin N → Nat) (s : DrleState σ N) : List (Fin N × Nat) :=
  ((List.finRange N).filter (fun t => t ∉ s.xformsIgnore)).map (fun t => (t, score s.spm t))

/-- Embedding of chooseType (drle.cc:633-650): starting from NONE and a
running maximum of 0, take every entry whose score strictly exceeds the
maximum. -/
def chooseType (stats : List (Fin N × Nat)) : Option (Fin N) :=
  (stats.foldl (fun (acc : Option (Fin N) × Nat) p =>
    if acc.2 < p.2 then (some p.1, p.2) else acc) (none, 0)).1

/-- Embedding of the EncodeAll loop (drle.cc:482-495) with an explicit
fuel bound on the number of iterations; the fuel-independence and the
iteration bound are proved below, which is the termination content of the
claim.  Returns the final state and the number of Encode calls. -/
def EncodeAllFuel (score : σ → Fin N → Nat) (encStep : σ → Fin N → σ) :
    Nat → DrleState σ N → DrleState σ N × Nat
  | 0, s => (s, 0)
  | fuel + 1, s =>
    match chooseType (genAllStats score s) with
    | none => (s, 0)
    | some t =>
      let r := EncodeAllFuel score encStep fuel ⟨encStep s.spm t, insert t s.xformsIgnore⟩
      (r.1, r.2 + 1)

/-! ## Partition ingestion, transform and the round-trip pipelines

The SparsePartition container and its Transform live in spm.h and spm.cc,
which are not under src/; they are modelled from the spec (sections 4.2
and 3): elements are (row, col, value) triples, ingestion sorts them into
horizontal order (row ascending then column ascending), and a transform
applies an invertible coordinate map and re-sorts. -/

/-- A coordinate triple of the partition. -/
structure Triple (α : Type) where
  row : Nat
  col : Nat
  val : α
deriving DecidableEq, Repr

/-- The horizontal (row-major) comparison used for sorting triples. -/
def tripleLe (a b : Triple α) : Prop :=
  a.row < b.row ∨ (a.row = b.row ∧ a.col ≤ b.col)

instance : DecidableRel (tripleLe (α := α)) := fun a b => by
  unfold tripleLe
  infer_instance

instance : IsTotal (Triple α) tripleLe := by
  constructor
  intro a b
  unfold tripleLe
  omega

instance : IsTrans (Triple α) tripleLe := by
  constructor
  intro a b c hab hbc
  unfold tripleLe at *
  omega

/-- Apply a coordinate map to a triple, keeping the value. -/
def mapCoord (f : Nat × Nat → Nat × Nat) (t : Triple α) : Triple α :=
  ⟨(f (t.row, t.col)).1, (f (t.row, t.col)).2, t.val⟩

/-- Modelled from the spec: new_from_coords sorts the ingested triples
into horizontal order (section 4.2; the SPM loader is not under src/).
The C++ sort is modelled by insertion sort, which agrees with any
comparison sort on the key-distinct inputs considered. -/
def newFromCoords (ts : List (Triple α)) : List (Triple α) :=
  List.insertionSort tripleLe ts

/-- Modelled from the spec: Transform re-keys every element with the
coordinate map of the target iteration order and re-sorts (section 4.2;
spm.cc is not under src/).  The coordinate map is a parameter; the spec
requires it to be invertible. -/
def TransformSort (f : Nat × Nat → Nat × Nat) (ts : List (Triple α)) : List (Triple α) :=
  List.insertionSort tripleLe (ts.map (mapCoord f))

/-- Group a sorted triple list into its nonempty rows: each group carries
the row index and the plain row elements in order. -/
def rowsSplit : List (Triple α) → List (Nat × List (SpmRowElem α))
  | [] => []
  | t :: rest =>
    match rowsSplit rest with
    | [] => [(t.row, [.plain t.col t.val])]
    | (r, es) :: more =>
      if t.row = r then (r, .plain t.col t.val :: es) :: more
      else (t.row, [.plain t.col t.val]) :: (r, es) :: more

/-- The triples covered by a row element in row r: a plain element is a
single triple, a pattern element covers its run (consecutive positions
for block patterns, delta steps otherwise). -/
def elemTriples (r : Nat) : SpmRowElem α → List (Triple α)
  | .plain x v => [⟨r, x, v⟩]
  | .pat x t d vals =>
    (vals.enum).map (fun p => ⟨r, x + (if isBlockType t ≠ 0 then 1 else d) * p.1, p.2⟩)

/-- Flatten row groups back into triples. -/
def unsplitRows (rows : List (Nat × List (SpmRowElem α))) : List (Triple α) :=
  rows.flatMap (fun p => p.2.flatMap (elemTriples p.1))

/-- The Encode-then-Decode pipeline of DRLE_Manager on one partition:
transform with the coordinate map f of the candidate type, encode and
decode every row, and transform back with the inverse map g
(drle.cc:375-413 and 443-480; the two Transform calls are modelled from
the spec as the coordinate maps composed with re-sorting, and the final
re-sort is omitted because only the element multiset is at stake). -/
def EncodeDecodePipeline [Inhabited α] (f g : Nat × Nat → Nat × Nat) (dset : List Nat)
    (minLimit maxLimit : Nat) (stype : SpmIterOrder) (ts : List (Triple α)) : List (Triple α) :=
  let rows := rowsSplit (TransformSort f ts)
  let rows2 := rows.map (fun p => (p.1, DecodeRow stype (EncodeRow dset minLimit maxLimit stype p.2)))
  (unsplitRows rows2).map (mapCoord g)

/-- Rows 0 to n-1 of a sorted triple list, including the empty ones, as
row element lists (the row iteration of MakeCsx). -/
def rowsOfRange (n : Nat) (l : List (Triple α)) : List (List (SpmRowElem α)) :=
  (List.range n).map (fun i => (l.filter (fun t => t.row = i)).map (fun t => .plain t.col t.val))

/-- The per-partition encoder pipeline measured by the determinism claim:
ingest the coordinate triples (sorting them into horizontal order), run
the per-row encoder for the horizontal type with a fixed configuration,
and assemble with MakeCsx; the result is the byte image of the control
stream and the values array. -/
def encoderPipeline [Inhabited α] (dset : List Nat) (minLimit maxLimit n : Nat)
    (ts : List (Triple α)) : Option (List Nat × List α) :=
  (MakeCsx ((rowsOfRange n (newFromCoords ts)).map
      (EncodeRow dset minLimit maxLimit .horizontal))).map
    (fun o => (ctlBytes o.ctl, o.values))

/-- Iterated GetFlag over a list of fresh pattern ids, used to reach a
concrete manager state with a given number of assigned flags. -/
def flagFill (s : CsxState Unit) : List Nat → Option (CsxState Unit)
  | [] => some s
  | i :: r =>
    match GetFlag s i 1 with
    | none => none
    | some p => flagFill p.2 r

/-! ## Specification-side helpers used to state the claims -/

/-- Loop of chunkSizes with a structural iteration bound (see
chunkSizesGo_fuel below). -/
def chunkSizesGo (minLimit maxLimit : Nat) : Nat → Nat → List Nat
  | 0, _ => []
  | fuel + 1, freq =>
    if minLimit ≤ freq ∧ 0 < min maxLimit freq then
      min maxLimit freq :: chunkSizesGo minLimit maxLimit fuel (freq - min maxLimit freq)
    else []

/-- The sizes of the pattern chunks that the spec prescribes for one
encodable run: while the remaining frequency reaches min_limit, cut a
chunk of min max_limit freq (section 4.4 of the spec).  The same guard
amendment as in doEncodePatLoop applies. -/
def chunkSizes (minLimit maxLimit : Nat) (freq : Nat) : List Nat :=
  chunkSizesGo minLimit maxLimit freq freq

/-- The pattern elements prescribed by the spec for a chunk size list:
the i-th chunk is anchored at col + val * (off i + 1) where off i is the
sum of the previous chunks, and consumes the next chunk values. -/
def patsFromChunks (stype : SpmIterOrder) (val col : Nat) (vs : List α) (off : Nat) :
    List Nat → List (SpmRowElem α)
  | [] => []
  | c :: cs =>
    .pat (col + val * (off + 1)) stype val ((vs.drop off).take c)
      :: patsFromChunks stype val col vs (off + c) cs

/-- The column positions generated by a run list starting at a column:
each run of value v and frequency f contributes col + v, col + 2v and so
on, advancing the column by v * f. -/
def posExpand (col : Nat) : List RLE → List Nat
  | [] => []
  | r :: rs =>
    (List.range r.freq).map (fun i => col + r.val * (i + 1)) ++ posExpand (col + r.val * r.freq) rs

/-- Plain elements at given positions, with values read from a list by
running index. -/
def plainsFromPos (vs : List α) [Inhabited α] : Nat → List Nat → List (SpmRowElem α)
  | _, [] => []
  | vi, p :: ps => .plain p (vs.getD vi default) :: plainsFromPos vs (vi + 1) ps

/-- Expansion of a run list back into the underlying value list. -/
def flattenRLE (runs : List RLE) : List Nat :=
  runs.flatMap (fun r => List.replicate r.freq r.val)

/-- Positions reconstructed from a delta list by running prefix sums. -/
def posDeltas (col : Nat) : List Nat → List Nat
  | [] => []
  | d :: ds => (col + d) :: posDeltas (col + d) ds

/-- Invariant of the block-encoder run loop: the first remaining run
starts at a positive column. -/
def headColOK (col : Nat) : List RLE → Prop
  | [] => True
  | r :: _ => 1 ≤ col + r.val

/-- Invariant of the block-encoder run loop: when the next run has delta
1 and does not start the row, the accumulator ends with the plain element
that the annexation step reabsorbs, and the value index is positive. -/
def headAnnexOK [Inhabited α] (col vi : Nat) (vs : List α) (acc : List (SpmRowElem α)) :
    List RLE → Prop
  | [] => True
  | r :: _ => r.val = 1 → col + 1 ≠ 1 →
      1 ≤ vi ∧ ∃ acc2, acc = acc2 ++ [SpmRowElem.plain col (vs.getD (vi - 1) default)]

/-! ## Helper lemmas -/

/-- The iteration bound of the varint writer is immaterial once it covers
the value. -/
theorem da_put_ulGo_fuel : ∀ f1 f2 val : Nat, val ≤ f1 → val ≤ f2 →
    da_put_ulGo f1 val = da_put_ulGo f2 val := by
  intro f1
  induction f1 with
  | zero =>
    intro f2 val h1 _
    have hv : val = 0 := by omega
    subst hv
    cases f2 <;> simp [da_put_ulGo]
  | succ f1 ih =>
    intro f2 val h1 h2
    cases f2 with
    | zero =>
      have hv : val = 0 := by omega
      subst hv
      simp [da_put_ulGo]
    | succ f2 =>
      by_cases h : val < 128
      · simp [da_put_ulGo, h]
      · have hd : val / 128 < val := Nat.div_lt_self (by omega) (by norm_num)
        simp only [da_put_ulGo, h, if_false]
        rw [ih f2 (val / 128) (by omega) (by omega)]

/-- The faithful recurrence of da_put_ul (csx.cc:46-54). -/
theorem da_put_ul_eq (val : Nat) : da_put_ul val =
    if val < 128 then [val % 128] else (val % 128 + 128) :: da_put_ul (val / 128) := by
  unfold da_put_ul
  by_cases h : val < 128
  · cases val <;> simp [da_put_ulGo, h]
  · cases val with
    | zero => omega
    | succ n =>
      have hd : (n + 1) / 128 < n + 1 := Nat.div_lt_self (by omega) (by norm_num)
      simp only [da_put_ulGo, h, if_false]
      rw [da_put_ulGo_fuel n ((n + 1) / 128) ((n + 1) / 128) (by omega) (by omega)]

/-- The varint writer always emits at least one byte. -/
theorem da_put_ul_ne_nil (v : Nat) : da_put_ul v ≠ [] := by
  rw [da_put_ul_eq]
  split <;> simp

/-- The iteration bound of the pattern loop is immaterial once it covers
the frequency. -/
theorem doEncodePatLoopGo_fuel (minLimit maxLimit delta : Nat) (stype : SpmIterOrder) :
    ∀ (f1 f2 col freq : Nat) (vs : List α), freq ≤ f1 → freq ≤ f2 →
    doEncodePatLoopGo minLimit maxLimit delta stype f1 col freq vs
      = doEncodePatLoopGo minLimit maxLimit delta stype f2 col freq vs := by
  intro f1
  induction f1 with
  | zero =>
    intro f2 col freq vs h1 _
    have hf : freq = 0 := by omega
    subst hf
    cases f2 <;> simp [doEncodePatLoopGo]
  | succ f1 ih =>
    intro f2 col freq vs h1 h2
    cases f2 with
    | zero =>
      have hf : freq = 0 := by omega
      subst hf
      simp [doEncodePatLoopGo]
    | succ f2 =>
      by_cases h : minLimit ≤ freq ∧ 0 < min maxLimit freq
      · simp only [doEncodePatLoopGo, h, if_true]
        rw [ih f2 (col + delta * min maxLimit freq) (freq - min maxLimit freq)
          (vs.drop (min maxLimit freq)) (by omega) (by omega)]
      · simp only [doEncodePatLoopGo, h, if_false]

/-- The faithful recurrence of the pattern while-loop (drle.cc:184-202). -/
theorem doEncodePatLoop_eq (minLimit maxLimit delta : Nat) (stype : SpmIterOrder)
    (col freq : Nat) (vs : List α) :
    doEncodePatLoop minLimit maxLimit delta stype col freq vs
      = if minLimit ≤ freq ∧ 0 < min maxLimit freq then
          let c := min maxLimit freq
          let r := doEncodePatLoop minLimit maxLimit delta stype (col + delta * c) (freq - c)
            (vs.drop c)
          (SpmRowElem.pat (col + delta) stype delta (vs.take c) :: r.1, r.2)
        else
          (plainsEmit delta col freq vs, col + delta * freq, vs.drop freq) := by
  unfold doEncodePatLoop
  by_cases h : minLimit ≤ freq ∧ 0 < min maxLimit freq
  · have hfreq : 0 < freq := Nat.lt_of_lt_of_le h.2 (Nat.min_le_right _ _)
    cases freq with
    | zero => omega
    | succ n =>
      simp only [doEncodePatLoopGo, h, if_true]
      rw [doEncodePatLoopGo_fuel minLimit maxLimit delta stype n (n + 1 - min maxLimit (n + 1))
        (col + delta * min maxLimit (n + 1)) (n + 1 - min maxLimit (n + 1))
        (vs.drop (min maxLimit (n + 1))) (by omega) (by omega)]
  · cases freq with
    | zero => simp [doEncodePatLoopGo, h]
    | succ n => simp only [doEncodePatLoopGo, h, if_false]

/-- The iteration bound of chunkSizes is immaterial once it covers the
frequency. -/
theorem chunkSizesGo_fuel (minLimit maxLimit : Nat) : ∀ f1 f2 freq : Nat,
    freq ≤ f1 → freq ≤ f2 →
    chunkSizesGo minLimit maxLimit f1 freq = chunkSizesGo minLimit maxLimit f2 freq := by
  intro f1
  induction f1 with
  | zero =>
    intro f2 freq h1 _
    have hf : freq = 0 := by omega
    subst hf
    cases f2 with
    | zero => rfl
    | succ f2 =>
      have h : ¬ (minLimit ≤ 0 ∧ 0 < min maxLimit 0) := by simp
      simp [chunkSizesGo]
  | succ f1 ih =>
    intro f2 freq h1 h2
    cases f2 with
    | zero =>
      have hf : freq = 0 := by omega
      subst hf
      simp [chunkSizesGo]
    | succ f2 =>
      by_cases h : minLimit ≤ freq ∧ 0 < min maxLimit freq
      · simp only [chunkSizesGo, h, if_true]
        rw [ih f2 (freq - min maxLimit freq) (by omega) (by omega)]
      · simp only [chunkSizesGo, h, if_false]

/-- The faithful recurrence of chunkSizes. -/
theorem chunkSizes_eq (minLimit maxLimit freq : Nat) :
    chunkSizes minLimit maxLimit freq
      = if minLimit ≤ freq ∧ 0 < min maxLimit freq then
          min maxLimit freq :: chunkSizes minLimit maxLimit (freq - min maxLimit freq)
        else [] := by
  unfold chunkSizes
  by_cases h : minLimit ≤ freq ∧ 0 < min maxLimit freq
  · have hfreq : 0 < freq := Nat.lt_of_lt_of_le h.2 (Nat.min_le_right _ _)
    cases freq with
    | zero => omega
    | succ n =>
      simp only [chunkSizesGo, h, if_true]
      rw [chunkSizesGo_fuel minLimit maxLimit n (n + 1 - min maxLimit (n + 1))
        (n + 1 - min maxLimit (n + 1)) (by omega) (by omega)]
  · cases freq with
    | zero => simp [chunkSizesGo]
    | succ n => simp only [chunkSizesGo, h, if_false]

/-- The varint writer is correct with respect to the spec reading:
decoding its output as a base-128 little-endian number returns the
original value.  This isolates the reader as the broken side of the
round trip. -/
theorem specVarintRead_da_put_ul (v : Nat) : specVarintRead (da_put_ul v) = v := by
  induction v using Nat.strong_induction_on with
  | _ v ih =>
    rw [da_put_ul_eq]
    by_cases h : v < 128
    · simp only [h, if_true, specVarintRead]
      have : v % 128 = v := Nat.mod_eq_of_lt h
      rw [this]
      simp [h]
    · simp only [h, if_false, specVarintRead]
      have h1 : ¬ v % 128 + 128 < 128 := by omega
      simp only [h1, if_false]
      have h2 : (v % 128 + 128) % 128 = v % 128 := by omega
      rw [h2, ih (v / 128) (Nat.div_lt_self (by omega) (by norm_num))]
      omega

/-- Lookup in the pattern map only returns stored entries. -/
theorem patLookup_mem {ps : List (Nat × PatInfo)} {k : Nat} {pi : PatInfo}
    (h : patLookup ps k = some pi) : (k, pi) ∈ ps := by
  induction ps with
  | nil => simp [patLookup] at h
  | cons p ps ih =>
    rw [patLookup] at h
    by_cases hk : p.1 = k
    · simp only [hk, if_true, Option.some_inj] at h
      subst h
      have hp : (k, p.2) = p := by rw [← hk]
      rw [hp]
      exact List.mem_cons_self _ _
    · simp only [hk, if_false] at h
      exact List.mem_cons_of_mem _ (ih h)

/-! ## Claim C2: varint round trip -/

/-- Claim C2.  The claim states that reading back a value written by
da_put_ul with uc_get_ul returns the original value, consuming exactly
the written bytes.  The reader is broken: its continuation loop tests the
uninitialized variable _uc instead of the byte it just read (csx.cc:90-91
assign uc but test _uc), so for the two-byte encoding of 128 the result
is whatever the uninitialized memory dictates: 0 when _uc starts at 0,
128 only by accident when it starts at 1.  The writer itself is correct
(see specVarintRead_da_put_ul). -/
theorem c2_uc_get_ul_not_inverse :
    da_put_ul 128 = [128, 1]
    ∧ uc_get_ul (da_put_ul 128) 0 = (0, [])
    ∧ (uc_get_ul (da_put_ul 128) 0).1 ≠ 128
    ∧ uc_get_ul (da_put_ul 128) 1 = (128, [])
    ∧ uc_get_ul (da_put_ul 128) 200 = (9216, []) := by
  decide

/-! ## Claim C5: smallest-fit delta width and the 8-byte unit -/

/-- Claim C5.  GetDeltaSize does return the smallest of 1, 2, 4, 8 bytes
holding its argument (checked here at both sides of every width
boundary), but a delta-list unit whose maximum delta needs the 8-byte
width is never emitted: the switch in AddXs (csx.cc:281-293) has no
DELTA_U64 case and falls into assert(false), modelled as none.  The
failing input below is a unit of columns 1 and 2^32 + 1, whose single
delta 2^32 requires the 8-byte width. -/
theorem c5_delta_width_u64_unit_asserts :
    GetDeltaSize 255 = 1 ∧ GetDeltaSize 256 = 2
    ∧ GetDeltaSize 65535 = 2 ∧ GetDeltaSize 65536 = 4
    ∧ GetDeltaSize (2 ^ 32 - 1) = 4 ∧ GetDeltaSize (2 ^ 32) = 8
    ∧ AddXs ({ initCsxState with lastCol := 1 } : CsxState Nat) [1, 2 ^ 32 + 1] = none := by
  decide

/-! ## Claim C8: the pattern flag cap -/

/-- Counterexample to claim C8.  The claim states that every flag GetFlag
assigns or returns is strictly below CTL_PATTERNS_MAX and that a call
that would assign a flag at or beyond the cap fails the assertion.  The
assertion in the code is ret at most CTL_PATTERNS_MAX (csx.cc:113), so
after 63 distinct patterns the 64th call succeeds and returns the flag
63 = CTL_PATTERNS_MAX, contradicting the strict bound; only the 65th
distinct pattern fails.  The last conjunct shows an assembler run that
fails without any allocator and without the flag assertion (the missing
8-byte delta case), refuting the claim that the flag assertion is the
only non-allocator failure. -/
theorem c8_counterexample_flag_eq_max :
    ((flagFill initCsxState ((List.range 63).map (fun i => 100 + i))).bind
        (fun s => (GetFlag s 7777 5).map Prod.fst)) = some CTL_PATTERNS_MAX
    ∧ ((flagFill initCsxState ((List.range 64).map (fun i => 100 + i))).bind
        (fun s => (GetFlag s 7777 5).map Prod.fst)) = none
    ∧ MakeCsx ([[.plain 1 (), .plain (2 ^ 32 + 1) ()]] : List (List (SpmRowElem Unit)))
        = none := by
  decide

/-- Claim C8 as amended: every flag value that GetFlag assigns or returns
is at most CTL_PATTERNS_MAX, and a call fails the assertion exactly when
it would have to assign a flag strictly beyond the cap (an unseen pattern
id while flag_avail already exceeds CTL_PATTERNS_MAX). -/
theorem c8_flag_cap_amended (s : CsxState α) (patternId nnz : Nat)
    (hinv : ∀ p ∈ s.patterns, p.2.flag ≤ CTL_PATTERNS_MAX) :
    (∀ r s1, GetFlag s patternId nnz = some (r, s1) → r ≤ CTL_PATTERNS_MAX)
    ∧ (GetFlag s patternId nnz = none
        ↔ patLookup s.patterns patternId = none ∧ CTL_PATTERNS_MAX < s.flagAvail) := by
  unfold GetFlag
  cases hl : patLookup s.patterns patternId with
  | none =>
    by_cases hcap : s.flagAvail ≤ CTL_PATTERNS_MAX
    · simp only [hcap, if_true]
      constructor
      · intro r s1 h
        have : r = s.flagAvail := by
          have := h
          simp only [Option.some_inj, Prod.mk.injEq] at this
          exact this.1.symm
        omega
      · constructor
        · intro h
          simp at h
        · intro ⟨_, h⟩
          omega
    · simp only [hcap, if_false]
      refine ⟨by intro r s1 h; simp at h, by simp; omega⟩
  | some pi =>
    constructor
    · intro r s1 h
      simp only [Option.some_inj, Prod.mk.injEq] at h
      have hmem := patLookup_mem hl
      have := hinv _ hmem
      simp only [← h.1] at this ⊢
      exact this
    · simp

/-- Witness for the amended claim C8 at a concrete manager state. -/
theorem c8_flag_cap_amended_witness :
    (∀ r s1, GetFlag (initCsxState : CsxState Unit) 5 2 = some (r, s1)
        → r ≤ CTL_PATTERNS_MAX)
    ∧ (GetFlag (initCsxState : CsxState Unit) 5 2 = none
        ↔ patLookup (initCsxState : CsxState Unit).patterns 5 = none
          ∧ CTL_PATTERNS_MAX < (initCsxState : CsxState Unit).flagAvail) :=
  c8_flag_cap_amended initCsxState 5 2 (by simp [initCsxState])

/-! ## Claim C1: size conservation through MakeCsx -/

/-- Lengths of the value lists of an element add up to its size. -/
theorem elemVals_length (e : SpmRowElem α) : (elemVals e).length = elemSize e := by
  cases e <;> simp [elemVals, elemSize]

/-- Appending one unit adds its size byte to the running sum. -/
theorem sumSizes_append (l : List CtlUnit) (u : CtlUnit) :
    sumSizes (l ++ [u]) = sumSizes l + u.size := by
  simp [sumSizes]

/-- GetFlag never touches the control stream, the values array or the
cursor fields. -/
theorem GetFlag_preserves {s : CsxState α} {patternId nnz : Nat} {r : Nat} {s1 : CsxState α}
    (h : GetFlag s patternId nnz = some (r, s1)) :
    s1.ctl = s.ctl ∧ s1.values = s.values ∧ s1.lastCol = s.lastCol ∧ s1.newRow = s.newRow
      ∧ s1.emptyRows = s.emptyRows := by
  unfold GetFlag at h
  cases hl : patLookup s.patterns patternId with
  | none =>
    rw [hl] at h
    by_cases hcap : s.flagAvail ≤ CTL_PATTERNS_MAX
    · rw [if_pos hcap] at h
      simp only [Option.some_inj, Prod.mk.injEq] at h
      rw [← h.2]
      exact ⟨rfl, rfl, rfl, rfl, rfl⟩
    · rw [if_neg hcap] at h
      simp at h
  | some pi =>
    rw [hl] at h
    simp only [Option.some_inj, Prod.mk.injEq] at h
    rw [← h.2]
    exact ⟨rfl, rfl, rfl, rfl, rfl⟩

/-- UpdateNewRow never touches the control stream or the values array. -/
theorem UpdateNewRow_preserves (s : CsxState α) (flags : Nat) :
    (UpdateNewRow s flags).2.2.ctl = s.ctl ∧ (UpdateNewRow s flags).2.2.values = s.values := by
  unfold UpdateNewRow
  by_cases hnr : s.newRow = false
  · rw [if_pos hnr]
    exact ⟨rfl, rfl⟩
  · rw [if_neg hnr]
    by_cases he : s.emptyRows ≠ 0
    · rw [if_pos he]
      exact ⟨rfl, rfl⟩
    · rw [if_neg he]
      exact ⟨rfl, rfl⟩

/-- A successful AddXs leaves the values array alone and appends exactly
one unit, whose size byte is the length of the flushed column vector. -/
theorem AddXs_spec {s : CsxState α} {xs : List Nat} {s1 : CsxState α}
    (h : AddXs s xs = some s1) :
    s1.values = s.values ∧ ∃ u : CtlUnit, u.size = xs.length ∧ s1.ctl = s.ctl ++ [u] := by
  simp only [AddXs] at h
  cases hgf : GetFlag { s with lastCol := xs.getLastD 0 }
      (PID_DELTA_BASE + ((8 <<< (getDeltaSize (if 1 < xs.length then
        ((DeltaEncodeGo s.lastCol xs).drop 1).foldl max 0 else 0)).toEnum) + PID_DELTA_BASE))
      xs.length with
  | none =>
    rw [hgf] at h
    simp at h
  | some p =>
    obtain ⟨flag, s2⟩ := p
    rw [hgf] at h
    simp only [] at h
    have hp := GetFlag_preserves hgf
    by_cases hsz : 0 < xs.length ∧ xs.length ≤ CTL_SIZE_MAX
    · rw [if_pos hsz] at h
      have hup := UpdateNewRow_preserves s2 flag
      by_cases h1 : 1 < xs.length
      · simp only [h1, if_true] at h
        cases hdsz : getDeltaSize (((DeltaEncodeGo s.lastCol xs).drop 1).foldl max 0) with
        | u64 =>
          rw [hdsz] at h
          simp at h
        | u8 =>
          rw [hdsz] at h
          simp only [Option.some_inj] at h
          rw [← h]
          exact ⟨by simpa using hup.2.trans hp.2.1,
            ⟨_, rfl, by simp only []; rw [hup.1, hp.1]⟩⟩
        | u16 =>
          rw [hdsz] at h
          simp only [Option.some_inj] at h
          rw [← h]
          exact ⟨by simpa using hup.2.trans hp.2.1,
            ⟨_, rfl, by simp only []; rw [hup.1, hp.1]⟩⟩
        | u32 =>
          rw [hdsz] at h
          simp only [Option.some_inj] at h
          rw [← h]
          exact ⟨by simpa using hup.2.trans hp.2.1,
            ⟨_, rfl, by simp only []; rw [hup.1, hp.1]⟩⟩
      · simp only [h1, if_false] at h
        simp only [Option.some_inj] at h
        rw [← h]
        exact ⟨by simpa using hup.2.trans hp.2.1,
          ⟨_, rfl, by simp only []; rw [hup.1, hp.1]⟩⟩
    · rw [if_neg hsz] at h
      simp at h

/-- A successful AddPattern with a zero jump leaves the values array alone
and appends exactly one unit, whose size byte is the pattern size. -/
theorem AddPattern_spec {s : CsxState α} {x : Nat} {pt : SpmIterOrder} {d : Nat} {vals : List α}
    {s1 : CsxState α} (h : AddPattern s x pt d vals 0 = some s1) :
    s1.values = s.values ∧ ∃ u : CtlUnit, u.size = vals.length ∧ s1.ctl = s.ctl ++ [u] := by
  simp only [AddPattern] at h
  cases hgf : GetFlag s (patternIdOf pt d) vals.length with
  | none =>
    rw [hgf] at h
    simp at h
  | some p =>
    obtain ⟨flag, s2⟩ := p
    rw [hgf] at h
    simp only [] at h
    have hp := GetFlag_preserves hgf
    by_cases hsz : (vals.length + if (0 : Nat) ≠ 0 then 1 else 0) ≤ CTL_SIZE_MAX
    · rw [if_pos hsz] at h
      have hup := UpdateNewRow_preserves s2 flag
      simp only [Option.some_inj] at h
      rw [← h]
      refine ⟨by simpa using hup.2.trans hp.2.1, ⟨_, ?_, by simp only []; rw [hup.1, hp.1]⟩⟩
      simp
    · rw [if_neg hsz] at h
      simp at h

/-- The DoRow loop invariant: the values array grows by exactly the
values of the processed elements in order, and the size bytes plus the
pending column count grow by exactly the element sizes. -/
theorem DoRowGo_spec :
    ∀ (elems : List (SpmRowElem α)) (s : CsxState α) (xs : List Nat) (s1 : CsxState α)
      (xs1 : List Nat), DoRowGo s xs elems = some (s1, xs1) →
    s1.values = s.values ++ elems.flatMap elemVals
    ∧ sumSizes s1.ctl + xs1.length
        = sumSizes s.ctl + xs.length + (elems.map elemSize).sum := by
  intro elems
  induction elems with
  | nil =>
    intro s xs s1 xs1 h
    rw [DoRowGo] at h
    simp only [Option.some_inj, Prod.mk.injEq] at h
    rw [← h.1, ← h.2]
    simp
  | cons e rest ih =>
    intro s xs s1 xs1 h
    cases e with
    | pat x pt d vals =>
      rw [DoRowGo] at h
      unfold PreparePat at h
      by_cases hxs : xs ≠ []
      · rw [if_pos hxs] at h
        cases hax : AddXs s xs with
        | none =>
          rw [hax] at h
          simp at h
        | some sA =>
          rw [hax] at h
          simp only [Option.map_some'] at h
          have hA := AddXs_spec hax
          cases hap : AddPattern sA x pt d vals 0 with
          | none =>
            rw [hap] at h
            simp at h
          | some s2 =>
            rw [hap] at h
            have hP := AddPattern_spec hap
            have hI := ih _ _ _ _ h
            simp only [] at hI
            obtain ⟨uA, huA, huActl⟩ := hA.2
            obtain ⟨uP, huP, huPctl⟩ := hP.2
            constructor
            · rw [hI.1]
              simp only [List.flatMap_cons, elemVals]
              rw [hP.1, hA.1]
              simp
            · simp only [List.map_cons, List.sum_cons, elemSize]
              have h2 := hI.2
              rw [huPctl, huActl, sumSizes_append, sumSizes_append] at h2
              simp only [List.length_nil] at h2 ⊢
              omega
      · rw [if_neg hxs] at h
        have hxse : xs = [] := by
          by_contra hc
          exact hxs hc
        subst hxse
        simp only [] at h
        cases hap : AddPattern s x pt d vals 0 with
        | none =>
          rw [hap] at h
          simp only [Option.some_inj] at h
          simp at h
        | some s2 =>
          rw [hap] at h
          simp only [Option.some_inj] at h
          have hP := AddPattern_spec hap
          have hI := ih _ _ _ _ h
          simp only [] at hI
          obtain ⟨uP, huP, huPctl⟩ := hP.2
          constructor
          · rw [hI.1]
            simp only [List.flatMap_cons, elemVals]
            rw [hP.1]
            simp
          · simp only [List.map_cons, List.sum_cons, elemSize]
            have h2 := hI.2
            rw [huPctl, sumSizes_append] at h2
            simp only [List.length_nil] at h2 ⊢
            omega
    | plain x v =>
      rw [DoRowGo] at h
      by_cases hfull : xs.length = CTL_SIZE_MAX
      · rw [if_pos hfull] at h
        cases hax : AddXs s xs with
        | none =>
          rw [hax] at h
          simp at h
        | some sA =>
          rw [hax] at h
          have hA := AddXs_spec hax
          have hI := ih _ _ _ _ h
          simp only [] at hI
          obtain ⟨uA, huA, huActl⟩ := hA.2
          constructor
          · rw [hI.1]
            simp only [List.flatMap_cons, elemVals]
            rw [hA.1]
            simp
          · simp only [List.map_cons, List.sum_cons, elemSize]
            have h2 := hI.2
            rw [huActl, sumSizes_append] at h2
            simp only [List.length_cons, List.length_nil] at h2 ⊢
            omega
      · rw [if_neg hfull] at h
        have hI := ih _ _ _ _ h
        simp only [] at hI
        constructor
        · rw [hI.1]
          simp only [List.flatMap_cons, elemVals]
          simp
        · simp only [List.map_cons, List.sum_cons, elemSize]
          have h2 := hI.2
          simp only [List.length_append, List.length_cons, List.length_nil] at h2 ⊢
          omega

/-- DoRow grows the values array by the row values in order and the size
bytes by the row sizes. -/
theorem DoRow_spec {s : CsxState α} {row : List (SpmRowElem α)} {s1 : CsxState α}
    (h : DoRow s row = some s1) :
    s1.values = s.values ++ row.flatMap elemVals
    ∧ sumSizes s1.ctl = sumSizes s.ctl + (row.map elemSize).sum := by
  unfold DoRow at h
  cases hgo : DoRowGo { s with lastCol := 1 } [] row with
  | none =>
    rw [hgo] at h
    simp at h
  | some p =>
    obtain ⟨s2, xs2⟩ := p
    rw [hgo] at h
    simp only [] at h
    have hG := DoRowGo_spec row { s with lastCol := 1 } [] s2 xs2 hgo
    simp only [List.length_nil] at hG
    by_cases hxs : xs2 ≠ []
    · rw [if_pos hxs] at h
      have hA := AddXs_spec h
      obtain ⟨uA, huA, huActl⟩ := hA.2
      constructor
      · rw [hA.1, hG.1]
      · rw [huActl, sumSizes_append, huA]
        omega
    · rw [if_neg hxs] at h
      simp only [Option.some_inj] at h
      rw [← h]
      have hxse : xs2 = [] := by
        by_contra hc
        exact hxs hc
      subst hxse
      simp only [List.length_nil] at hG
      exact ⟨hG.1, by omega⟩

/-- The MakeCsx row loop preserves the invariant across empty and
nonempty rows. -/
theorem MakeCsxGo_spec :
    ∀ (rows : List (List (SpmRowElem α))) (s : CsxState α) (s1 : CsxState α),
    MakeCsxGo s rows = some s1 →
    s1.values = s.values ++ rows.flatten.flatMap elemVals
    ∧ sumSizes s1.ctl = sumSizes s.ctl + nnzRows rows := by
  intro rows
  induction rows with
  | nil =>
    intro s s1 h
    rw [MakeCsxGo] at h
    simp only [Option.some_inj] at h
    rw [← h]
    simp [nnzRows]
  | cons row rest ih =>
    intro s s1 h
    rw [MakeCsxGo] at h
    by_cases hemp : row.isEmpty
    · rw [if_pos hemp] at h
      have hrow : row = [] := List.isEmpty_iff.mp hemp
      subst hrow
      by_cases hnr : s.newRow = false
      · rw [if_pos hnr] at h
        have hI := ih _ _ h
        simpa [nnzRows] using hI
      · rw [if_neg hnr] at h
        have hI := ih _ _ h
        simpa [nnzRows] using hI
    · rw [if_neg hemp] at h
      cases hdr : DoRow s row with
      | none =>
        rw [hdr] at h
        simp at h
      | some s2 =>
        rw [hdr] at h
        have hD := DoRow_spec hdr
        have hI := ih _ _ h
        constructor
        · rw [hI.1]
          simp only [List.flatten_cons, List.flatMap_append]
          rw [hD.1]
          simp
        · rw [hI.2]
          simp only [nnzRows, List.map_cons, List.sum_cons] at *
          omega

/-- Claim C1.  Whenever MakeCsx completes on a partition, the sum of the
size bytes over all emitted units equals the total nonzero count of the
partition, the values array is exactly the concatenation of the element
values in element order (each unit consumed exactly its size entries in
order), and so the final values index equals nnz. -/
theorem c1_makecsx_size_conservation (rows : List (List (SpmRowElem α))) (out : CsxOut α)
    (h : MakeCsx rows = some out) :
    sumSizes out.ctl = nnzRows rows
    ∧ out.values = rows.flatten.flatMap elemVals
    ∧ out.values.length = nnzRows rows := by
  unfold MakeCsx at h
  cases hgo : MakeCsxGo (initCsxState : CsxState α) rows with
  | none =>
    rw [hgo] at h
    simp at h
  | some s1 =>
    rw [hgo] at h
    simp only [Option.map_some', Option.some_inj] at h
    have hG := MakeCsxGo_spec rows initCsxState s1 hgo
    have hinit1 : (initCsxState : CsxState α).values = [] := rfl
    have hinit2 : sumSizes (initCsxState : CsxState α).ctl = 0 := rfl
    rw [hinit1] at hG
    rw [hinit2] at hG
    have hctl : out.ctl = s1.ctl := by rw [← h]
    have hval : out.values = s1.values := by rw [← h]
    refine ⟨?_, ?_, ?_⟩
    · rw [hctl, hG.2]
      omega
    · rw [hval, hG.1]
      simp
    · rw [hval, hG.1]
      simp only [List.nil_append, List.length_flatMap]
      have hfun : (List.length ∘ elemVals : SpmRowElem α → Nat) = elemSize :=
        funext elemVals_length
      rw [hfun, List.map_flatten, List.sum_flatten, List.map_map]
      rfl

/-- Witness for claim C1 on a concrete three-row partition with a plain
unit, an empty row and a horizontal pattern. -/
theorem c1_makecsx_size_conservation_witness :
    MakeCsx ([[.plain 1 5, .plain 3 6], [], [.pat 2 .horizontal 1 [7, 8, 9]]] :
        List (List (SpmRowElem Nat)))
      = some ⟨[⟨0, 2, [], [0], 1, [2]⟩, ⟨193, 3, [2], [1], 0, []⟩], [5, 6, 7, 8, 9], true⟩
    ∧ sumSizes [⟨0, 2, [], [0], 1, [2]⟩, ⟨193, 3, [2], [1], 0, []⟩]
        = nnzRows ([[.plain 1 5, .plain 3 6], [], [.pat 2 .horizontal 1 [7, 8, 9]]] :
            List (List (SpmRowElem Nat))) := by
  have h : MakeCsx ([[.plain 1 5, .plain 3 6], [], [.pat 2 .horizontal 1 [7, 8, 9]]] :
      List (List (SpmRowElem Nat)))
      = some ⟨[⟨0, 2, [], [0], 1, [2]⟩, ⟨193, 3, [2], [1], 0, []⟩], [5, 6, 7, 8, 9], true⟩ := by
    decide
  exact ⟨h, (c1_makecsx_size_conservation _ _ h).1⟩

/-! ## Claim C4: characterization of doEncode for one run -/

/-- Shifting the chunk offset is the same as advancing the anchor column
and the value iterator. -/
theorem patsFromChunks_shift (stype : SpmIterOrder) (val col : Nat) (vs : List α) :
    ∀ (cs : List Nat) (off k : Nat),
    patsFromChunks stype val col vs (off + k) cs
      = patsFromChunks stype val (col + val * k) (vs.drop k) off cs := by
  intro cs
  induction cs with
  | nil => intro off k; rfl
  | cons c cs ih =>
    intro off k
    simp only [patsFromChunks]
    rw [List.drop_drop]
    have h1 : col + val * (off + k + 1) = col + val * k + val * (off + 1) := by ring
    have h2 : off + k = off + k := rfl
    rw [h1]
    have h3 : off + c + k = off + k + c := by ring
    rw [← h3, ih (off + c) k, Nat.add_comm k off]

/-- The chunks never cover more than the frequency. -/
theorem chunkSizes_sum_le (minLimit maxLimit : Nat) : ∀ freq : Nat,
    (chunkSizes minLimit maxLimit freq).sum ≤ freq := by
  intro freq
  induction freq using Nat.strong_induction_on with
  | _ freq ih =>
    rw [chunkSizes_eq]
    by_cases h : minLimit ≤ freq ∧ 0 < min maxLimit freq
    · rw [if_pos h]
      simp only [List.sum_cons]
      have hc1 : 0 < min maxLimit freq := h.2
      have hc2 : min maxLimit freq ≤ freq := Nat.min_le_right _ _
      have := ih (freq - min maxLimit freq) (by omega)
      omega
    · rw [if_neg h]
      simp

/-- With positive limits the remainder after the chunk loop is below
min_limit (the loop only exits when the remaining frequency no longer
reaches it). -/
theorem chunkSizes_rem_lt (minLimit maxLimit : Nat) (hmin : 1 ≤ minLimit)
    (hmax : 1 ≤ maxLimit) : ∀ freq : Nat,
    freq - (chunkSizes minLimit maxLimit freq).sum < minLimit := by
  intro freq
  induction freq using Nat.strong_induction_on with
  | _ freq ih =>
    rw [chunkSizes_eq]
    by_cases h : minLimit ≤ freq ∧ 0 < min maxLimit freq
    · rw [if_pos h]
      simp only [List.sum_cons]
      have hc1 : 0 < min maxLimit freq := h.2
      have hc2 : min maxLimit freq ≤ freq := Nat.min_le_right _ _
      have := ih (freq - min maxLimit freq) (by omega)
      omega
    · rw [if_neg h]
      simp only [List.sum_nil, Nat.sub_zero]
      by_cases hf : minLimit ≤ freq
      · exfalso
        apply h
        refine ⟨hf, ?_⟩
        have : 1 ≤ freq := by omega
        omega
      · omega

/-- The pattern loop emits exactly the chunk patterns at their prefix-sum
anchors, consuming consecutive value segments, followed by the plain
elements of the remainder; the column advances by delta times the whole
frequency and the value iterator by the whole frequency. -/
theorem doEncodePatLoop_closed (minLimit maxLimit delta : Nat) (stype : SpmIterOrder) :
    ∀ (freq col : Nat) (vs : List α),
    doEncodePatLoop minLimit maxLimit delta stype col freq vs
      = (patsFromChunks stype delta col vs 0 (chunkSizes minLimit maxLimit freq)
          ++ plainsEmit delta (col + delta * (chunkSizes minLimit maxLimit freq).sum)
               (freq - (chunkSizes minLimit maxLimit freq).sum)
               (vs.drop (chunkSizes minLimit maxLimit freq).sum),
         col + delta * freq, vs.drop freq) := by
  intro freq
  induction freq using Nat.strong_induction_on with
  | _ freq ih =>
    intro col vs
    rw [doEncodePatLoop_eq, chunkSizes_eq]
    by_cases h : minLimit ≤ freq ∧ 0 < min maxLimit freq
    · rw [if_pos h, if_pos h]
      simp only []
      have hc1 : 0 < min maxLimit freq := h.2
      have hc2 : min maxLimit freq ≤ freq := Nat.min_le_right _ _
      rw [ih (freq - min maxLimit freq) (by omega)]
      simp only [patsFromChunks, List.sum_cons]
      have hshift := patsFromChunks_shift stype delta col vs
        (chunkSizes minLimit maxLimit (freq - min maxLimit freq)) 0 (min maxLimit freq)
      rw [Nat.zero_add] at hshift
      simp only [Prod.mk.injEq]
      refine ⟨?_, ?_, ?_⟩
      · rw [← hshift]
        have hp : plainsEmit delta (col + delta * min maxLimit freq
              + delta * (chunkSizes minLimit maxLimit (freq - min maxLimit freq)).sum)
            (freq - min maxLimit freq
              - (chunkSizes minLimit maxLimit (freq - min maxLimit freq)).sum)
            ((vs.drop (min maxLimit freq)).drop
              (chunkSizes minLimit maxLimit (freq - min maxLimit freq)).sum)
            = plainsEmit delta (col + delta * (min maxLimit freq
                + (chunkSizes minLimit maxLimit (freq - min maxLimit freq)).sum))
              (freq - (min maxLimit freq
                + (chunkSizes minLimit maxLimit (freq - min maxLimit freq)).sum))
              (vs.drop (min maxLimit freq
                + (chunkSizes minLimit maxLimit (freq - min maxLimit freq)).sum)) := by
          rw [List.drop_drop]
          have e1 : col + delta * min maxLimit freq
                + delta * (chunkSizes minLimit maxLimit (freq - min maxLimit freq)).sum
              = col + delta * (min maxLimit freq
                + (chunkSizes minLimit maxLimit (freq - min maxLimit freq)).sum) := by ring
          have e2 : freq - min maxLimit freq
                - (chunkSizes minLimit maxLimit (freq - min maxLimit freq)).sum
              = freq - (min maxLimit freq
                + (chunkSizes minLimit maxLimit (freq - min maxLimit freq)).sum) := by omega
          rw [e1, e2]
        rw [hp]
        have ha : col + delta = col + delta * (0 + 1) := by ring
        rw [← ha, List.cons_append]
        simp only [List.drop_zero, Nat.zero_add]
      · have e : delta * min maxLimit freq + delta * (freq - min maxLimit freq)
            = delta * freq := by
          rw [← Nat.left_distrib]
          congr 1
          omega
        rw [Nat.add_assoc, e]
      · rw [List.drop_drop]
        congr 1
        omega
    · rw [if_neg h, if_neg h]
      simp [patsFromChunks]

/-- Claim C4.  For a run (val, freq) of the delta run-length encoding in
doEncode for a non-block type: when val is in deltas_to_encode, pattern
elements are emitted while the remaining frequency reaches min_limit,
each of chunk size min max_limit (remaining freq), anchored at the
column advanced by val, consuming consecutive chunks of the value list,
with the column advancing by val times the chunk; the remainder, which
is below min_limit, is emitted as plain elements one per step of val.
When val is not in the set the whole run is emitted as plain elements
one per step of val.  The chunk schedule is the chunkSizes list, whose
very definition is the while-loop of the spec sentence. -/
theorem c4_doEncodeRun_characterization (dset : List Nat) (minLimit maxLimit : Nat)
    (stype : SpmIterOrder) (col : Nat) (r : RLE) (vs : List α)
    (hmin : 1 ≤ minLimit) (hmax : 1 ≤ maxLimit) :
    (r.val ∈ dset →
      doEncodeRun dset minLimit maxLimit stype col r vs
        = (patsFromChunks stype r.val col vs 0 (chunkSizes minLimit maxLimit r.freq)
            ++ plainsEmit r.val (col + r.val * (chunkSizes minLimit maxLimit r.freq).sum)
                 (r.freq - (chunkSizes minLimit maxLimit r.freq).sum)
                 (vs.drop (chunkSizes minLimit maxLimit r.freq).sum),
           col + r.val * r.freq, vs.drop r.freq)
      ∧ r.freq - (chunkSizes minLimit maxLimit r.freq).sum < minLimit
      ∧ (chunkSizes minLimit maxLimit r.freq).sum ≤ r.freq)
    ∧ (r.val ∉ dset →
      doEncodeRun dset minLimit maxLimit stype col r vs
        = (plainsEmit r.val col r.freq vs, col + r.val * r.freq, vs.drop r.freq)) := by
  constructor
  · intro hmem
    refine ⟨?_, chunkSizes_rem_lt minLimit maxLimit hmin hmax r.freq,
      chunkSizes_sum_le minLimit maxLimit r.freq⟩
    unfold doEncodeRun
    rw [if_pos hmem]
    exact doEncodePatLoop_closed minLimit maxLimit r.val stype r.freq col vs
  · intro hmem
    unfold doEncodeRun
    rw [if_neg hmem]

/-- Witness for claim C4 at a concrete encodable run: delta 1, frequency
7, min_limit 2 and max_limit 3 give chunks 3, 3 and a leftover of 1. -/
theorem c4_doEncodeRun_characterization_witness :
    ((⟨7, 1⟩ : RLE).val ∈ [1] →
      doEncodeRun [1] 2 3 .horizontal 0 ⟨7, 1⟩ ([10, 11, 12, 13, 14, 15, 16] : List Nat)
        = (patsFromChunks .horizontal 1 0 [10, 11, 12, 13, 14, 15, 16] 0 (chunkSizes 2 3 7)
            ++ plainsEmit 1 (0 + 1 * (chunkSizes 2 3 7).sum) (7 - (chunkSizes 2 3 7).sum)
                 (([10, 11, 12, 13, 14, 15, 16] : List Nat).drop (chunkSizes 2 3 7).sum),
           0 + 1 * 7, ([10, 11, 12, 13, 14, 15, 16] : List Nat).drop 7)
      ∧ 7 - (chunkSizes 2 3 7).sum < 2
      ∧ (chunkSizes 2 3 7).sum ≤ 7)
    ∧ ((⟨7, 1⟩ : RLE).val ∉ [1] →
      doEncodeRun [1] 2 3 .horizontal 0 ⟨7, 1⟩ ([10, 11, 12, 13, 14, 15, 16] : List Nat)
        = (plainsEmit 1 0 7 ([10, 11, 12, 13, 14, 15, 16] : List Nat), 0 + 1 * 7,
           ([10, 11, 12, 13, 14, 15, 16] : List Nat).drop 7)) :=
  c4_doEncodeRun_characterization [1] 2 3 .horizontal 0 ⟨7, 1⟩
    [10, 11, 12, 13, 14, 15, 16] (by norm_num) (by norm_num)

/-! ## Claim C7: termination of the EncodeAll planner loop -/

/-- The chooseType fold returns NONE exactly when nothing beat the
running maximum; with a maximum of 0 that means no positive score. -/
theorem chooseType_foldl_none {N : Nat} :
    ∀ (stats : List (Fin N × Nat)) (o : Option (Fin N)) (m : Nat),
    (stats.foldl (fun (acc : Option (Fin N) × Nat) p =>
        if acc.2 < p.2 then (some p.1, p.2) else acc) (o, m)).1 = none
    ↔ o = none ∧ ∀ p ∈ stats, p.2 ≤ m := by
  intro stats
  induction stats with
  | nil =>
    intro o m
    simp
  | cons p rest ih =>
    intro o m
    simp only [List.foldl_cons]
    by_cases hc : m < p.2
    · rw [if_pos hc, ih]
      constructor
      · rintro ⟨h0, -⟩
        exact absurd h0 (by simp)
      · rintro ⟨ho, hall⟩
        exact absurd (hall p (List.mem_cons_self p rest)) (by omega)
    · rw [if_neg hc, ih]
      constructor
      · rintro ⟨ho, hall⟩
        refine ⟨ho, fun q hq => ?_⟩
        rcases List.mem_cons.mp hq with h | h
        · subst h
          omega
        · exact hall q h
      · rintro ⟨ho, hall⟩
        exact ⟨ho, fun q hq => hall q (List.mem_cons_of_mem _ hq)⟩

/-- A type chosen by the fold comes from the statistics map or from the
starting accumulator. -/
theorem chooseType_foldl_mem {N : Nat} :
    ∀ (stats : List (Fin N × Nat)) (o : Option (Fin N)) (m : Nat) (t : Fin N),
    (stats.foldl (fun (acc : Option (Fin N) × Nat) p =>
        if acc.2 < p.2 then (some p.1, p.2) else acc) (o, m)).1 = some t
    → t ∈ stats.map Prod.fst ∨ o = some t := by
  intro stats
  induction stats with
  | nil =>
    intro o m t h
    right
    simpa using h
  | cons p rest ih =>
    intro o m t h
    simp only [List.foldl_cons] at h
    by_cases hc : m < p.2
    · rw [if_pos hc] at h
      rcases ih _ _ _ h with hm | hm
      · left
        exact List.mem_cons_of_mem _ hm
      · left
        simp only [Option.some_inj] at hm
        simp [hm]
    · rw [if_neg hc] at h
      rcases ih _ _ _ h with hm | hm
      · left
        exact List.mem_cons_of_mem _ hm
      · right
        exact hm

/-- chooseType returns NONE exactly when every statistics entry has
score 0 (drle.cc:633-650: only scores strictly above the running maximum,
which starts at 0, are taken). -/
theorem chooseType_none_iff {N : Nat} (stats : List (Fin N × Nat)) :
    chooseType stats = none ↔ ∀ p ∈ stats, p.2 = 0 := by
  unfold chooseType
  rw [chooseType_foldl_none]
  simp

/-- A chosen type is a key of the statistics map. -/
theorem chooseType_some_mem {N : Nat} {stats : List (Fin N × Nat)} {t : Fin N}
    (h : chooseType stats = some t) : t ∈ stats.map Prod.fst := by
  unfold chooseType at h
  rcases chooseType_foldl_mem stats none 0 t h with hm | hm
  · exact hm
  · simp at hm

/-- Keys of the rebuilt statistics map are exactly the non-ignored
types. -/
theorem genAllStats_keys {σ : Type} {N : Nat} (score : σ → Fin N → Nat) (s : DrleState σ N)
    (t : Fin N) :
    t ∈ (genAllStats score s).map Prod.fst ↔ t ∉ s.xformsIgnore := by
  unfold genAllStats
  rw [List.map_map]
  simp [List.mem_filter, List.mem_finRange]

/-- A type chosen from the rebuilt statistics map is not ignored. -/
theorem chooseType_genAllStats_not_ignored {σ : Type} {N : Nat} {score : σ → Fin N → Nat}
    {s : DrleState σ N} {t : Fin N} (h : chooseType (genAllStats score s) = some t) :
    t ∉ s.xformsIgnore :=
  (genAllStats_keys score s t).mp (chooseType_some_mem h)

/-- The number of Encode iterations of the planner loop never exceeds
the number of non-ignored candidate types. -/
theorem EncodeAllFuel_count_le {σ : Type} {N : Nat} (score : σ → Fin N → Nat)
    (encStep : σ → Fin N → σ) :
    ∀ (fuel : Nat) (s : DrleState σ N),
    (EncodeAllFuel score encStep fuel s).2 ≤ N - s.xformsIgnore.card := by
  intro fuel
  induction fuel with
  | zero =>
    intro s
    simp [EncodeAllFuel]
  | succ fuel ih =>
    intro s
    rw [EncodeAllFuel]
    cases hct : chooseType (genAllStats score s) with
    | none => simp
    | some t =>
      simp only []
      have hnotin : t ∉ s.xformsIgnore := chooseType_genAllStats_not_ignored hct
      have hcard : (insert t s.xformsIgnore).card = s.xformsIgnore.card + 1 :=
        Finset.card_insert_of_not_mem hnotin
      have hle : (insert t s.xformsIgnore).card ≤ N := by
        have := Finset.card_le_univ (insert t s.xformsIgnore)
        simpa using this
      have := ih ⟨encStep s.spm t, insert t s.xformsIgnore⟩
      simp only [] at this
      rw [hcard] at this
      omega

/-- Any two fuels covering the non-ignored type count agree: the loop
terminates on its own before the bound runs out. -/
theorem EncodeAllFuel_fuel_indep {σ : Type} {N : Nat} (score : σ → Fin N → Nat)
    (encStep : σ → Fin N → σ) :
    ∀ (f1 f2 : Nat) (s : DrleState σ N),
    N - s.xformsIgnore.card ≤ f1 → N - s.xformsIgnore.card ≤ f2 →
    EncodeAllFuel score encStep f1 s = EncodeAllFuel score encStep f2 s := by
  have hstop : ∀ (s : DrleState σ N), N - s.xformsIgnore.card = 0 →
      chooseType (genAllStats score s) = none := by
    intro s h0
    rw [chooseType_none_iff]
    intro p hp
    have hle : s.xformsIgnore.card ≤ N := by
      have := Finset.card_le_univ s.xformsIgnore
      simpa using this
    have hcard : s.xformsIgnore.card = N := by omega
    have huniv : s.xformsIgnore = Finset.univ :=
      Finset.eq_univ_of_card _ (by simpa using hcard)
    have hkey : p.1 ∈ (genAllStats score s).map Prod.fst := List.mem_map_of_mem _ hp
    rw [genAllStats_keys] at hkey
    rw [huniv] at hkey
    exact absurd (Finset.mem_univ p.1) hkey
  intro f1
  induction f1 with
  | zero =>
    intro f2 s h1 h2
    have h0 : N - s.xformsIgnore.card = 0 := by omega
    have hct := hstop s h0
    cases f2 with
    | zero => rfl
    | succ f2 =>
      rw [EncodeAllFuel, EncodeAllFuel, hct]
  | succ f1 ih =>
    intro f2 s h1 h2
    cases f2 with
    | zero =>
      have h0 : N - s.xformsIgnore.card = 0 := by omega
      have hct := hstop s h0
      rw [EncodeAllFuel, EncodeAllFuel, hct]
    | succ f2 =>
      rw [EncodeAllFuel, EncodeAllFuel]
      cases hct : chooseType (genAllStats score s) with
      | none => rfl
      | some t =>
        simp only []
        have hnotin : t ∉ s.xformsIgnore := chooseType_genAllStats_not_ignored hct
        have hcard : (insert t s.xformsIgnore).card = s.xformsIgnore.card + 1 :=
          Finset.card_insert_of_not_mem hnotin
        have hle : (insert t s.xformsIgnore).card ≤ N := by
          have := Finset.card_le_univ (insert t s.xformsIgnore)
          simpa using this
        rw [ih f2 ⟨encStep s.spm t, insert t s.xformsIgnore⟩ (by simp only []; omega)
          (by simp only []; omega)]

/-- Claim C7.  The EncodeAll loop terminates for every matrix and
configuration: a run with any fuel at least the number of non-ignored
candidate types equals a run with any other such fuel (the loop stops by
itself), the number of Encode iterations is bounded by that number
(each iteration adds the chosen, previously non-ignored type to the
ignore set), and an iteration stops exactly when no candidate type has a
positive score (chooseType returns NONE when the best score is 0). -/
theorem c7_encodeall_terminates {σ : Type} {N : Nat} (score : σ → Fin N → Nat)
    (encStep : σ → Fin N → σ) (s : DrleState σ N) (f1 f2 : Nat)
    (h1 : N - s.xformsIgnore.card ≤ f1) (h2 : N - s.xformsIgnore.card ≤ f2) :
    EncodeAllFuel score encStep f1 s = EncodeAllFuel score encStep f2 s
    ∧ (EncodeAllFuel score encStep f1 s).2 ≤ N - s.xformsIgnore.card
    ∧ (chooseType (genAllStats score s) = none
        ↔ ∀ t : Fin N, t ∉ s.xformsIgnore → score s.spm t = 0) := by
  refine ⟨EncodeAllFuel_fuel_indep score encStep f1 f2 s h1 h2,
    EncodeAllFuel_count_le score encStep f1 s, ?_⟩
  rw [chooseType_none_iff]
  unfold genAllStats
  constructor
  · intro hall t ht
    refine hall (t, score s.spm t) ?_
    simp only [List.mem_map, List.mem_filter, List.mem_finRange]
    exact ⟨t, by simpa using ht, rfl⟩
  · intro hall p hp
    simp only [List.mem_map, List.mem_filter, List.mem_finRange] at hp
    obtain ⟨t, ⟨-, ht⟩, hpt⟩ := hp
    rw [← hpt]
    exact hall t (by simpa using ht)

/-- Witness for claim C7 with three candidate types, scores 2, 1, 0 and a
trivial encode step: the loop runs twice and stops. -/
theorem c7_encodeall_terminates_witness :
    EncodeAllFuel (fun (_ : Nat) (t : Fin 3) => 2 - t.val) (fun n _ => n + 1) 3 ⟨0, ∅⟩
      = EncodeAllFuel (fun (_ : Nat) (t : Fin 3) => 2 - t.val) (fun n _ => n + 1) 4 ⟨0, ∅⟩
    ∧ (EncodeAllFuel (fun (_ : Nat) (t : Fin 3) => 2 - t.val) (fun n _ => n + 1) 3
        ⟨0, ∅⟩).2 ≤ 3 - (∅ : Finset (Fin 3)).card
    ∧ (chooseType (genAllStats (fun (_ : Nat) (t : Fin 3) => 2 - t.val)
          (⟨0, ∅⟩ : DrleState Nat 3)) = none
        ↔ ∀ t : Fin 3, t ∉ (⟨0, ∅⟩ : DrleState Nat 3).xformsIgnore
            → (fun (_ : Nat) (t : Fin 3) => 2 - t.val) (⟨0, ∅⟩ : DrleState Nat 3).spm t = 0) :=
  c7_encodeall_terminates (fun (_ : Nat) (t : Fin 3) => 2 - t.val) (fun n _ => n + 1)
    ⟨0, ∅⟩ 3 4 (by decide) (by decide)

/-! ## Claim C10: determinism of the encoder pipeline -/

/-- Two sorted permutations of the same triples with pairwise distinct
coordinates are equal: sorting canonicalizes any ingestion order. -/
theorem sorted_perm_eq :
    ∀ {l₁ l₂ : List (Triple α)}, l₁.Perm l₂ →
    l₁.Sorted tripleLe → l₂.Sorted tripleLe →
    (l₁.map (fun t => (t.row, t.col))).Nodup → l₁ = l₂ := by
  intro l₁
  induction l₁ with
  | nil =>
    intro l₂ hp _ _ _
    exact (hp.nil_eq).symm ▸ rfl
  | cons a t₁ ih =>
    intro l₂ hp hs₁ hs₂ hnd
    cases l₂ with
    | nil =>
      have := hp.length_eq
      simp at this
    | cons b t₂ =>
      rw [List.map_cons, List.nodup_cons] at hnd
      by_cases hab : a = b
      · subst hab
        have hpt := hp.cons_inv
        have := ih hpt (List.Sorted.of_cons hs₁) (List.Sorted.of_cons hs₂) hnd.2
        rw [this]
      · exfalso
        have ha : a ∈ t₂ := by
          have : a ∈ b :: t₂ := hp.subset (List.mem_cons_self a t₁)
          rcases List.mem_cons.mp this with h | h
          · exact absurd h hab
          · exact h
        have hb : b ∈ t₁ := by
          have : b ∈ a :: t₁ := hp.symm.subset (List.mem_cons_self b t₂)
          rcases List.mem_cons.mp this with h | h
          · exact absurd h.symm hab
          · exact h
        have le1 : tripleLe a b := List.rel_of_sorted_cons hs₁ b hb
        have le2 : tripleLe b a := List.rel_of_sorted_cons hs₂ a ha
        have hkey : a.row = b.row ∧ a.col = b.col := by
          unfold tripleLe at le1 le2
          omega
        apply hnd.1
        have : (b.row, b.col) ∈ t₁.map (fun t => (t.row, t.col)) :=
          List.mem_map_of_mem _ hb
        rw [← hkey.1, ← hkey.2] at this
        exact this

/-- Claim C10.  For a fixed configuration (deltas to encode, min_limit,
max_limit, row count), two runs of the encoder pipeline on the same
input element set, presented in any order, produce identical results:
the same control-stream bytes and the same values array (or both abort).
Ingestion sorts the triples into horizontal order, and every later stage
is a pure function of the sorted partition and the configuration. -/
theorem c10_pipeline_deterministic [Inhabited α] (dset : List Nat) (minLimit maxLimit n : Nat)
    (ts₁ ts₂ : List (Triple α)) (hperm : ts₁.Perm ts₂)
    (hnd : (ts₁.map (fun t => (t.row, t.col))).Nodup) :
    encoderPipeline dset minLimit maxLimit n ts₁ = encoderPipeline dset minLimit maxLimit n ts₂ := by
  have hsorted : newFromCoords ts₁ = newFromCoords ts₂ := by
    apply sorted_perm_eq
    · exact ((List.perm_insertionSort tripleLe ts₁).trans hperm).trans
        (List.perm_insertionSort tripleLe ts₂).symm
    · exact List.sorted_insertionSort tripleLe ts₁
    · exact List.sorted_insertionSort tripleLe ts₂
    · exact ((List.perm_insertionSort tripleLe ts₁).map _).nodup_iff.mpr hnd
  unfold encoderPipeline
  rw [hsorted]

/-- Witness for claim C10 on a two-element set presented in both
orders. -/
theorem c10_pipeline_deterministic_witness :
    encoderPipeline [1] 4 254 2 ([⟨0, 1, 10⟩, ⟨1, 2, 20⟩] : List (Triple Nat))
      = encoderPipeline [1] 4 254 2 ([⟨1, 2, 20⟩, ⟨0, 1, 10⟩] : List (Triple Nat)) :=
  c10_pipeline_deterministic [1] 4 254 2 _ _ (List.Perm.swap _ _ _) (by decide)

/-! ## Claim C9: the row-jump marker -/

/-- Claim C9.  In any manager state satisfying the run invariant that the
empty-row counter is zero outside a pending new row (which holds at every
UpdateNewRow call site of MakeCsx), the updated flags byte has the
CTL_RJMP bit set exactly when empty rows were crossed since the last
emitted nonempty row; in that case and only then row-jump bytes are
appended, they are the varint of empty_rows + 1, and the counter resets
to 0.  The final conjunct places the row-jump bytes immediately after the
two header bytes in the serialized stream. -/
theorem c9_rowjump_marker (s : CsxState α) (flags : Nat)
    (hflags : flags < 2 ^ CTL_RJMP_BIT)
    (hinv : s.newRow = false → s.emptyRows = 0) :
    ((UpdateNewRow s flags).1.testBit CTL_RJMP_BIT ↔ s.emptyRows ≠ 0)
    ∧ ((UpdateNewRow s flags).2.1 ≠ [] ↔ s.emptyRows ≠ 0)
    ∧ (s.emptyRows ≠ 0 → (UpdateNewRow s flags).2.1 = da_put_ul (s.emptyRows + 1)
        ∧ (UpdateNewRow s flags).2.2.emptyRows = 0)
    ∧ (∀ (off : Nat) (u : CtlUnit), ∃ tail,
        serializeUnit off u = u.flags :: u.size :: (u.rjmp ++ tail)) := by
  have hser : ∀ (off : Nat) (u : CtlUnit), ∃ tail,
      serializeUnit off u = u.flags :: u.size :: (u.rjmp ++ tail) := by
    intro off u
    unfold serializeUnit
    by_cases hd : u.deltas.isEmpty
    · exact ⟨u.ucol, by simp [hd]⟩
    · refine ⟨u.ucol ++ (List.replicate (padTo (off + (u.flags :: u.size ::
        (u.rjmp ++ u.ucol)).length) u.dwidth) 0 ++ u.deltas.flatMap (fixedLE u.dwidth)), ?_⟩
      simp [hd]
  by_cases hnr : s.newRow = false
  · have he : s.emptyRows = 0 := hinv hnr
    have hu : UpdateNewRow s flags = (flags, [], s) := by
      unfold UpdateNewRow
      rw [if_pos hnr]
    rw [hu]
    refine ⟨?_, ?_, ?_, hser⟩
    · rw [Nat.testBit_lt_two_pow hflags]
      simp [he]
    · simp [he]
    · intro h
      exact absurd he h
  · have hnr2 : s.newRow = true := by
      cases h : s.newRow with
      | false => exact absurd h hnr
      | true => rfl
    by_cases he : s.emptyRows = 0
    · have hu : UpdateNewRow s flags
          = (flags ||| 2 ^ CTL_NR_BIT, [], { s with newRow := false }) := by
        unfold UpdateNewRow
        rw [hnr2]
        simp [he]
      rw [hu]
      refine ⟨?_, ?_, ?_, hser⟩
      · have h6 : flags ||| 2 ^ CTL_NR_BIT < 2 ^ CTL_RJMP_BIT :=
          Nat.or_lt_two_pow hflags (by norm_num [CTL_NR_BIT, CTL_RJMP_BIT])
        rw [Nat.testBit_lt_two_pow h6]
        simp [he]
      · simp [he]
      · intro h
        exact absurd he h
    · have hu : UpdateNewRow s flags
          = (flags ||| 2 ^ CTL_NR_BIT ||| 2 ^ CTL_RJMP_BIT, da_put_ul (s.emptyRows + 1),
             { s with newRow := false, emptyRows := 0, rowJmps := true }) := by
        unfold UpdateNewRow
        rw [hnr2]
        simp [he]
      rw [hu]
      refine ⟨?_, ?_, ?_, hser⟩
      · simp [Nat.testBit_or, Nat.testBit_two_pow_self, he]
      · simp [da_put_ul_ne_nil, he]
      · exact fun _ => ⟨rfl, rfl⟩

/-- Witness for claim C9 at a concrete state crossing two empty rows. -/
theorem c9_rowjump_marker_witness :
    ((UpdateNewRow ({ initCsxState with newRow := true, emptyRows := 2 } : CsxState Unit)
        5).1.testBit CTL_RJMP_BIT
      ↔ ({ initCsxState with newRow := true, emptyRows := 2 } : CsxState Unit).emptyRows ≠ 0)
    ∧ ((UpdateNewRow ({ initCsxState with newRow := true, emptyRows := 2 } : CsxState Unit)
        5).2.1 ≠ []
      ↔ ({ initCsxState with newRow := true, emptyRows := 2 } : CsxState Unit).emptyRows ≠ 0)
    ∧ (({ initCsxState with newRow := true, emptyRows := 2 } : CsxState Unit).emptyRows ≠ 0
      → (UpdateNewRow ({ initCsxState with newRow := true, emptyRows := 2 } : CsxState Unit)
            5).2.1
          = da_put_ul (({ initCsxState with newRow := true, emptyRows := 2 } :
              CsxState Unit).emptyRows + 1)
        ∧ (UpdateNewRow ({ initCsxState with newRow := true, emptyRows := 2 } :
            CsxState Unit) 5).2.2.emptyRows = 0)
    ∧ (∀ (off : Nat) (u : CtlUnit), ∃ tail,
        serializeUnit off u = u.flags :: u.size :: (u.rjmp ++ tail)) :=
  c9_rowjump_marker { initCsxState with newRow := true, emptyRows := 2 } 5
    (by norm_num [CTL_RJMP_BIT]) (by simp)

/-! ## Claim C6: statistics accounting for non-block types -/

/-- Crediting a delta value raises its nnz field by the frequency. -/
theorem bumpStats_same_nnz (stats : Nat → StatsEntry) (v f : Nat) :
    (bumpStats stats v f v).nnz = (stats v).nnz + f := by
  unfold bumpStats
  simp

/-- Crediting a delta value raises its npatterns field by one. -/
theorem bumpStats_same_npatterns (stats : Nat → StatsEntry) (v f : Nat) :
    (bumpStats stats v f v).npatterns = (stats v).npatterns + 1 := by
  unfold bumpStats
  simp

/-- Crediting a delta value leaves the other entries unchanged. -/
theorem bumpStats_other (stats : Nat → StatsEntry) (v f d : Nat) (h : d ≠ v) :
    bumpStats stats v f d = stats d := by
  unfold bumpStats
  simp [h]

/-- The stats fold adds, at every delta value, the frequencies of the
qualifying runs and their count. -/
theorem statsAccum_eval (minLimit : Nat) :
    ∀ (runs : List RLE) (stats : Nat → StatsEntry) (d : Nat),
    (statsAccum minLimit stats runs d).nnz
      = (stats d).nnz + ((runs.filter (fun r => minLimit ≤ r.freq ∧ r.val = d)).map
          (fun r => r.freq)).sum
    ∧ (statsAccum minLimit stats runs d).npatterns
      = (stats d).npatterns + (runs.filter (fun r => minLimit ≤ r.freq ∧ r.val = d)).length := by
  intro runs
  induction runs with
  | nil => intro stats d; simp [statsAccum]
  | cons r rs ih =>
    intro stats d
    rw [statsAccum, List.filter_cons]
    by_cases hf : minLimit ≤ r.freq
    · rw [if_pos hf]
      have h1 := ih (bumpStats stats r.val r.freq) d
      by_cases hv : r.val = d
      · have hfil : decide (minLimit ≤ r.freq ∧ r.val = d) = true := by
          simp [hf, hv]
        rw [hfil]
        simp only [if_true, List.map_cons, List.sum_cons, List.length_cons]
        subst hv
        constructor
        · rw [h1.1, bumpStats_same_nnz]
          omega
        · rw [h1.2, bumpStats_same_npatterns]
          omega
      · have hfil : decide (minLimit ≤ r.freq ∧ r.val = d) = false := by
          simp [hv]
        rw [hfil]
        have hd : d ≠ r.val := fun h => hv h.symm
        constructor
        · rw [h1.1, bumpStats_other _ _ _ _ hd]
          simp
        · rw [h1.2, bumpStats_other _ _ _ _ hd]
          simp
    · rw [if_neg hf]
      have hfil : decide (minLimit ≤ r.freq ∧ r.val = d) = false := by
        simp [hf]
      rw [hfil]
      have h1 := ih stats d
      simp only [Bool.false_eq_true, if_false]
      exact h1

/-- Claim C6.  For a nonempty vector of consecutive plain-element columns
of a row of a partition in a non-block iteration order (block alignment
0), updateStats adds exactly freq to the nnz field and exactly 1 to the
npatterns field of the entry of delta_val, for every maximal run
(delta_val, freq) of the delta run-length encoding with freq at least
min_limit, and runs below min_limit contribute nothing. -/
theorem c6_updateStats_accounting (minLimit : Nat) (xs : List Nat) (stats : Nat → StatsEntry)
    (d : Nat) (hxs : xs ≠ []) :
    (updateStats 0 minLimit xs stats d).nnz
      = (stats d).nnz + (((RLEncode (DeltaEncodeV xs)).filter
          (fun r => minLimit ≤ r.freq ∧ r.val = d)).map (fun r => r.freq)).sum
    ∧ (updateStats 0 minLimit xs stats d).npatterns
      = (stats d).npatterns + ((RLEncode (DeltaEncodeV xs)).filter
          (fun r => minLimit ≤ r.freq ∧ r.val = d)).length := by
  unfold updateStats
  simp only [ne_eq, not_true_eq_false, if_false, hxs, if_neg]
  exact statsAccum_eval minLimit (RLEncode (DeltaEncodeV xs)) stats d

/-- Witness for claim C6: the columns 1 to 5 form one run of delta 1 and
frequency 5, credited once with five nonzeros at min_limit 4. -/
theorem c6_updateStats_accounting_witness :
    (updateStats 0 4 [1, 2, 3, 4, 5] (fun _ => ⟨0, 0⟩) 1).nnz
      = ((fun _ => (⟨0, 0⟩ : StatsEntry)) 1).nnz
        + (((RLEncode (DeltaEncodeV [1, 2, 3, 4, 5])).filter
            (fun r => 4 ≤ r.freq ∧ r.val = 1)).map (fun r => r.freq)).sum
    ∧ (updateStats 0 4 [1, 2, 3, 4, 5] (fun _ => ⟨0, 0⟩) 1).npatterns
      = ((fun _ => (⟨0, 0⟩ : StatsEntry)) 1).npatterns
        + ((RLEncode (DeltaEncodeV [1, 2, 3, 4, 5])).filter
            (fun r => 4 ≤ r.freq ∧ r.val = 1)).length :=
  c6_updateStats_accounting 4 [1, 2, 3, 4, 5] (fun _ => ⟨0, 0⟩) 1 (by simp)

/-! ## Claim C3: encode then decode restores the partition content -/

/-- DecodeRow distributes over concatenation. -/
theorem DecodeRow_append (stype : SpmIterOrder) (l1 l2 : List (SpmRowElem α)) :
    DecodeRow stype (l1 ++ l2) = DecodeRow stype l1 ++ DecodeRow stype l2 := by
  unfold DecodeRow
  exact List.flatMap_append l1 l2 _

/-- Plain elements produced by a map decode to themselves. -/
theorem DecodeRow_plains_map {β : Type} (stype : SpmIterOrder) (p : β → Nat) (v : β → α) :
    ∀ l : List β,
    DecodeRow stype (l.map fun i => .plain (p i) (v i)) = l.map fun i => .plain (p i) (v i) := by
  intro l
  induction l with
  | nil => rfl
  | cons b bs ih =>
    unfold DecodeRow at *
    simp only [List.map_cons, List.flatMap_cons]
    rw [ih]
    rfl

/-- The trailing plain-element emission decodes to itself. -/
theorem DecodeRow_plainsEmit (stype : SpmIterOrder) (delta : Nat) :
    ∀ (f c : Nat) (vs : List α), DecodeRow stype (plainsEmit delta c f vs) = plainsEmit delta c f vs := by
  intro f
  induction f with
  | zero => intro c vs; rfl
  | succ f ih =>
    intro c vs
    cases vs with
    | nil => rfl
    | cons v vs =>
      have h1 : plainsEmit delta c (f + 1) (v :: vs)
          = [SpmRowElem.plain (c + delta) v] ++ plainsEmit delta (c + delta) f vs := rfl
      rw [h1, DecodeRow_append, ih (c + delta) vs]
      rfl

/-- Emitting plain elements from an empty value list yields nothing. -/
theorem plainsEmit_nil_vals (delta c : Nat) : ∀ f, plainsEmit delta c f ([] : List α) = [] := by
  intro f
  cases f <;> rfl

/-- Decoding a non-block pattern recovers the plain elements it replaced:
the anchor is one delta past the base column and the positions step by
the delta. -/
theorem doDecodeLoop_nonblock (stype : SpmIterOrder) (hb : isBlockType stype = 0) (delta : Nat) :
    ∀ (c col : Nat) (vs : List α),
    doDecodeLoop stype delta (col + delta) (vs.take c) = plainsEmit delta col c vs := by
  intro c
  induction c with
  | zero => intro col vs; simp [doDecodeLoop, plainsEmit]
  | succ k ih =>
    intro col vs
    cases vs with
    | nil => simp [doDecodeLoop, plainsEmit_nil_vals]
    | cons v vs =>
      rw [List.take_succ_cons]
      have hstep : doDecodeLoop stype delta (col + delta) (v :: vs.take k)
          = SpmRowElem.plain (col + delta) v
            :: doDecodeLoop stype delta (getNextX stype delta (col + delta)) (vs.take k) := rfl
      have hnx : getNextX stype delta (col + delta) = col + delta + delta := by
        unfold getNextX
        rw [if_neg (by simp [hb])]
      rw [hstep, hnx, ih (col + delta) vs]
      rfl

/-- Splitting the plain emission at any prefix count. -/
theorem plainsEmit_split (delta : Nat) :
    ∀ (c f col : Nat) (vs : List α), c ≤ f →
    plainsEmit delta col f vs
      = plainsEmit delta col c vs ++ plainsEmit delta (col + delta * c) (f - c) (vs.drop c) := by
  intro c
  induction c with
  | zero =>
    intro f col vs _
    simp [plainsEmit]
  | succ k ih =>
    intro f col vs hc
    cases f with
    | zero => omega
    | succ m =>
      cases vs with
      | nil =>
        rw [plainsEmit_nil_vals, plainsEmit_nil_vals, List.drop_nil, plainsEmit_nil_vals]
        rfl
      | cons v vs =>
        have hL : plainsEmit delta col (m + 1) (v :: vs)
            = SpmRowElem.plain (col + delta) v :: plainsEmit delta (col + delta) m vs := rfl
        have hR : plainsEmit delta col (k + 1) (v :: vs)
            = SpmRowElem.plain (col + delta) v :: plainsEmit delta (col + delta) k vs := rfl
        rw [hL, hR, List.cons_append]
        congr 1
        have h1 : col + delta * (k + 1) = col + delta + delta * k := by ring
        have h2 : m + 1 - (k + 1) = m - k := by omega
        have h3 : List.drop (k + 1) (v :: vs) = vs.drop k := rfl
        rw [h1, h2, h3]
        exact ih m (col + delta) vs (by omega)

/-- Decoding the output of the pattern while-loop gives back exactly the
plain elements the loop consumed. -/
theorem DecodeRow_doEncodePatLoop (stype : SpmIterOrder) (hb : isBlockType stype = 0)
    (minLimit maxLimit delta : Nat) :
    ∀ (freq col : Nat) (vs : List α),
    DecodeRow stype (doEncodePatLoop minLimit maxLimit delta stype col freq vs).1
      = plainsEmit delta col freq vs := by
  intro freq
  induction freq using Nat.strong_induction_on with
  | _ freq ih =>
    intro col vs
    rw [doEncodePatLoop_eq]
    by_cases h : minLimit ≤ freq ∧ 0 < min maxLimit freq
    · rw [if_pos h]
      simp only []
      have hc1 : 0 < min maxLimit freq := h.2
      have hc2 : min maxLimit freq ≤ freq := Nat.min_le_right _ _
      have hdc : DecodeRow stype (SpmRowElem.pat (col + delta) stype delta
            (vs.take (min maxLimit freq))
            :: (doEncodePatLoop minLimit maxLimit delta stype
                (col + delta * min maxLimit freq) (freq - min maxLimit freq)
                (vs.drop (min maxLimit freq))).1)
          = doDecode (col + delta) stype delta (vs.take (min maxLimit freq))
            ++ DecodeRow stype (doEncodePatLoop minLimit maxLimit delta stype
                (col + delta * min maxLimit freq) (freq - min maxLimit freq)
                (vs.drop (min maxLimit freq))).1 := by
        unfold DecodeRow
        rw [List.flatMap_cons]
        congr 1
        simp only []
        rw [if_pos trivial]
      rw [hdc, ih (freq - min maxLimit freq) (by omega)]
      unfold doDecode
      rw [doDecodeLoop_nonblock stype hb]
      exact (plainsEmit_split delta (min maxLimit freq) freq col vs hc2).symm
    · rw [if_neg h]
      simp only []
      exact DecodeRow_plainsEmit stype delta freq col vs

/-- The plain emission is the zip of the run positions with the values. -/
theorem plainsEmit_eq_zip (delta : Nat) :
    ∀ (f col : Nat) (vs : List α),
    plainsEmit delta col f vs
      = List.zipWith SpmRowElem.plain ((List.range f).map (fun i => col + delta * (i + 1))) vs := by
  intro f
  induction f with
  | zero => intro col vs; rfl
  | succ f ih =>
    intro col vs
    cases vs with
    | nil =>
      rw [plainsEmit_nil_vals]
      simp
    | cons v vs =>
      rw [List.range_succ_eq_map, List.map_cons, List.map_map]
      unfold plainsEmit
      rw [List.zipWith_cons_cons]
      have hm : (List.range f).map ((fun i => col + delta * (i + 1)) ∘ Nat.succ)
          = (List.range f).map (fun i => col + delta + delta * (i + 1)) := by
        apply List.map_congr_left
        intro i _
        simp only [Function.comp, Nat.succ_eq_add_one]
        ring
      rw [hm]
      have h0 : col + delta * (0 + 1) = col + delta := by ring
      rw [h0, ih (col + delta) vs]

/-- Zipping with concatenated positions splits the value list. -/
theorem zipWith_plain_append :
    ∀ (A B : List Nat) (vs : List α),
    List.zipWith SpmRowElem.plain (A ++ B) vs
      = List.zipWith SpmRowElem.plain A vs
        ++ List.zipWith SpmRowElem.plain B (vs.drop A.length) := by
  intro A
  induction A with
  | nil => intro B vs; simp
  | cons a A ih =>
    intro B vs
    cases vs with
    | nil => simp
    | cons v vs =>
      simp only [List.cons_append, List.zipWith_cons_cons, List.length_cons, List.drop_succ_cons]
      rw [ih]

/-- Decoding the non-block run loop: the accumulated output decodes to
itself followed by the zip of all run positions with the values. -/
theorem DecodeRow_doEncodeGo (stype : SpmIterOrder) (hb : isBlockType stype = 0)
    (dset : List Nat) (minLimit maxLimit : Nat) :
    ∀ (runs : List RLE) (col : Nat) (vs : List α) (acc : List (SpmRowElem α)),
    DecodeRow stype (doEncodeGo dset minLimit maxLimit stype col vs acc runs)
      = DecodeRow stype acc ++ List.zipWith SpmRowElem.plain (posExpand col runs) vs := by
  intro runs
  induction runs with
  | nil =>
    intro col vs acc
    simp [doEncodeGo, posExpand]
  | cons r rs ih =>
    intro col vs acc
    rw [doEncodeGo]
    have hlen : ((List.range r.freq).map (fun i => col + r.val * (i + 1))).length = r.freq := by
      simp
    by_cases hm : r.val ∈ dset
    · have hrun : doEncodeRun dset minLimit maxLimit stype col r vs
          = doEncodePatLoop minLimit maxLimit r.val stype col r.freq vs := by
        unfold doEncodeRun
        rw [if_pos hm]
      rw [hrun]
      have hcl := doEncodePatLoop_closed minLimit maxLimit r.val stype r.freq col vs
      have h21 : (doEncodePatLoop minLimit maxLimit r.val stype col r.freq vs).2.1
          = col + r.val * r.freq := by rw [hcl]
      have h22 : (doEncodePatLoop minLimit maxLimit r.val stype col r.freq vs).2.2
          = vs.drop r.freq := by rw [hcl]
      rw [h21, h22, ih]
      rw [DecodeRow_append, DecodeRow_doEncodePatLoop stype hb]
      rw [posExpand]
      rw [zipWith_plain_append, hlen, plainsEmit_eq_zip]
      rw [List.append_assoc]
    · have hrun : doEncodeRun dset minLimit maxLimit stype col r vs
          = (plainsEmit r.val col r.freq vs, col + r.val * r.freq, vs.drop r.freq) := by
        unfold doEncodeRun
        rw [if_neg hm]
      rw [hrun]
      simp only []
      rw [ih, DecodeRow_append, DecodeRow_plainsEmit]
      rw [posExpand]
      rw [zipWith_plain_append, hlen, plainsEmit_eq_zip]
      rw [List.append_assoc]

/-- Run positions are the prefix sums over the flattened delta list. -/
theorem posExpand_eq_posDeltas :
    ∀ (runs : List RLE) (col : Nat), posExpand col runs = posDeltas col (flattenRLE runs) := by
  have hrep : ∀ (f v col : Nat) (ds : List Nat),
      posDeltas col (List.replicate f v ++ ds)
        = (List.range f).map (fun i => col + v * (i + 1)) ++ posDeltas (col + v * f) ds := by
    intro f
    induction f with
    | zero => intro v col ds; simp [posDeltas]
    | succ f ih =>
      intro v col ds
      rw [List.replicate_succ, List.cons_append]
      have hstep : posDeltas col (v :: (List.replicate f v ++ ds))
          = (col + v) :: posDeltas (col + v) (List.replicate f v ++ ds) := rfl
      rw [hstep, ih v (col + v) ds]
      rw [List.range_succ_eq_map, List.map_cons, List.map_map]
      have hm : (List.range f).map ((fun i => col + v * (i + 1)) ∘ Nat.succ)
          = (List.range f).map (fun i => col + v + v * (i + 1)) := by
        apply List.map_congr_left
        intro i _
        simp only [Function.comp, Nat.succ_eq_add_one]
        ring
      rw [hm]
      have h0 : col + v * (0 + 1) = col + v := by ring
      have h1 : col + v + v * f = col + v * (f + 1) := by ring
      rw [h0, h1, List.cons_append]
  intro runs
  induction runs with
  | nil => intro col; rfl
  | cons r rs ih =>
    intro col
    rw [posExpand]
    unfold flattenRLE at *
    rw [List.flatMap_cons, hrep, ih]

/-- The run-length encoder loop flattens back to the current run followed
by the unprocessed input. -/
theorem flattenRLE_RLEncodeGo :
    ∀ (rest : List Nat) (cur : RLE),
    flattenRLE (RLEncodeGo cur rest) = List.replicate cur.freq cur.val ++ rest := by
  intro rest
  induction rest with
  | nil =>
    intro cur
    simp [RLEncodeGo, flattenRLE]
  | cons y r ih =>
    intro cur
    rw [RLEncodeGo]
    by_cases hv : cur.val ≠ y
    · rw [if_pos hv]
      unfold flattenRLE at *
      rw [List.flatMap_cons, ih]
      simp
    · rw [if_neg hv]
      rw [ih]
      have hy : y = cur.val := by omega
      subst hy
      simp [List.replicate_succ']

/-- Run-length encoding loses nothing: flattening recovers the input. -/
theorem flattenRLE_RLEncode (ds : List Nat) : flattenRLE (RLEncode ds) = ds := by
  cases ds with
  | nil => rfl
  | cons d ds =>
    rw [RLEncode, flattenRLE_RLEncodeGo]
    rfl

/-- Prefix sums undo the delta pass on a monotone list. -/
theorem posDeltas_DeltaEncodeGo :
    ∀ (xs : List Nat) (prev : Nat), List.Chain' (· ≤ ·) (prev :: xs) →
    posDeltas prev (DeltaEncodeGo prev xs) = xs := by
  intro xs
  induction xs with
  | nil => intro prev _; rfl
  | cons y r ih =>
    intro prev hch
    have hle : prev ≤ y := (List.chain'_cons.mp hch).1
    unfold DeltaEncodeGo posDeltas
    have h1 : prev + (y - prev) = y := by omega
    rw [h1]
    rw [ih y (List.chain'_cons.mp hch).2]

/-- Core recovery lemma: the run positions of the delta run-length
encoding of a monotone column list are the columns themselves. -/
theorem posExpand_RLEncode_DeltaEncodeV (cols : List Nat) (hch : List.Chain' (· ≤ ·) cols) :
    posExpand 0 (RLEncode (DeltaEncodeV cols)) = cols := by
  rw [posExpand_eq_posDeltas, flattenRLE_RLEncode]
  cases cols with
  | nil => rfl
  | cons c rest =>
    unfold DeltaEncodeV posDeltas
    rw [Nat.zero_add]
    rw [posDeltas_DeltaEncodeGo rest c hch]

/-- A singleton plain element decodes to itself. -/
theorem DecodeRow_plain_single (stype : SpmIterOrder) (x : Nat) (v : α) :
    DecodeRow stype [SpmRowElem.plain x v] = [SpmRowElem.plain x v] := rfl

/-- A list of plain elements decodes to itself. -/
theorem DecodeRow_all_plain (stype : SpmIterOrder) :
    ∀ (l : List (SpmRowElem α)), (∀ e ∈ l, ∃ x v, e = SpmRowElem.plain x v) →
    DecodeRow stype l = l := by
  intro l
  induction l with
  | nil => intro _; rfl
  | cons e es ih =>
    intro h
    obtain ⟨x, v, he⟩ := h e (List.mem_cons_self e es)
    subst he
    unfold DecodeRow at *
    rw [List.flatMap_cons, ih (fun a ha => h a (List.mem_cons_of_mem _ ha))]
    rfl

/-- A pattern element of the current iteration order standing alone
decodes through doDecode. -/
theorem DecodeRow_pat_self (stype : SpmIterOrder) (x d : Nat) (vals : List α) :
    DecodeRow stype [SpmRowElem.pat x stype d vals] = doDecode x stype d vals := by
  unfold DecodeRow
  rw [List.flatMap_cons]
  simp only []
  rw [if_pos trivial, List.flatMap_nil, List.append_nil]

/-- Decoding a block pattern yields consecutive plain elements whose
values are read off the value list at consecutive indices. -/
theorem doDecodeLoop_block [Inhabited α] (stype : SpmIterOrder) (hb : isBlockType stype ≠ 0)
    (delta : Nat) :
    ∀ (n w x : Nat) (vs : List α), w + n ≤ vs.length →
    doDecodeLoop stype delta x ((vs.drop w).take n)
      = (List.range n).map (fun j => SpmRowElem.plain (x + j) (vs.getD (w + j) default)) := by
  intro n
  induction n with
  | zero => intro w x vs h; rfl
  | succ n ih =>
    intro w x vs h
    have hw : w < vs.length := by omega
    rw [List.drop_eq_getElem_cons hw, List.take_succ_cons]
    have hstep : doDecodeLoop stype delta x (vs[w] :: (vs.drop (w + 1)).take n)
        = SpmRowElem.plain x vs[w]
          :: doDecodeLoop stype delta (getNextX stype delta x) ((vs.drop (w + 1)).take n) := rfl
    have hnx : getNextX stype delta x = x + 1 := by
      unfold getNextX
      rw [if_pos hb]
    rw [hstep, hnx, ih (w + 1) (x + 1) vs (by omega)]
    rw [List.range_succ_eq_map, List.map_cons, List.map_map]
    congr 1
    · rw [Nat.add_zero, Nat.add_zero, List.getD_eq_getElem vs default hw]
    · apply List.map_congr_left
      intro j _
      simp only [Function.comp, Nat.succ_eq_add_one]
      have e1 : x + 1 + j = x + (j + 1) := by omega
      have e2 : w + 1 + j = w + (j + 1) := by omega
      rw [e1, e2]

/-- plainsFromPos distributes over position concatenation, advancing the
value index by the length of the first part. -/
theorem plainsFromPos_append [Inhabited α] (vs : List α) :
    ∀ (A B : List Nat) (vi : Nat),
    plainsFromPos vs vi (A ++ B) = plainsFromPos vs vi A ++ plainsFromPos vs (vi + A.length) B := by
  intro A
  induction A with
  | nil =>
    intro B vi
    simp [plainsFromPos]
  | cons a A ih =>
    intro B vi
    rw [List.cons_append]
    have hstep : ∀ (ps : List Nat), plainsFromPos vs vi (a :: ps)
        = SpmRowElem.plain a (vs.getD vi default) :: plainsFromPos vs (vi + 1) ps :=
      fun ps => rfl
    rw [hstep, hstep, ih, List.cons_append, List.length_cons]
    have e : vi + 1 + A.length = vi + (A.length + 1) := by omega
    rw [e]

/-- plainsFromPos over a range map is the range map of plain elements at
shifted value indices. -/
theorem plainsFromPos_range_map [Inhabited α] (vs : List α) :
    ∀ (n : Nat) (g : Nat → Nat) (vi : Nat),
    plainsFromPos vs vi ((List.range n).map g)
      = (List.range n).map (fun i => SpmRowElem.plain (g i) (vs.getD (vi + i) default)) := by
  intro n
  induction n with
  | zero => intro g vi; rfl
  | succ n ih =>
    intro g vi
    rw [List.range_succ_eq_map, List.map_cons, List.map_map, List.map_cons, List.map_map]
    have hstep : plainsFromPos vs vi (g 0 :: (List.range n).map (g ∘ Nat.succ))
        = SpmRowElem.plain (g 0) (vs.getD vi default)
          :: plainsFromPos vs (vi + 1) ((List.range n).map (g ∘ Nat.succ)) := rfl
    rw [hstep, ih (g ∘ Nat.succ) (vi + 1)]
    congr 1
    apply List.map_congr_left
    intro i _
    simp only [Function.comp, Nat.succ_eq_add_one]
    have e : vi + 1 + i = vi + (i + 1) := by omega
    rw [e]

/-- When the positions fit inside the value list, plainsFromPos is the
zip of the positions with the value suffix. -/
theorem plainsFromPos_zipWith [Inhabited α] (vs : List α) :
    ∀ (ps : List Nat) (vi : Nat), vi + ps.length ≤ vs.length →
    plainsFromPos vs vi ps = List.zipWith SpmRowElem.plain ps (vs.drop vi) := by
  intro ps
  induction ps with
  | nil => intro vi h; rfl
  | cons p ps ih =>
    intro vi h
    rw [List.length_cons] at h
    have hvi : vi < vs.length := by omega
    rw [List.drop_eq_getElem_cons hvi, List.zipWith_cons_cons]
    have hstep : plainsFromPos vs vi (p :: ps)
        = SpmRowElem.plain p (vs.getD vi default) :: plainsFromPos vs (vi + 1) ps := rfl
    rw [hstep, List.getD_eq_getElem vs default hvi, ih (vi + 1) (by omega)]

/-- Decoding the emitted block patterns of one aligned region yields the
plain elements of all covered positions in order. -/
theorem DecodeRow_blocks [Inhabited α] (stype : SpmIterOrder) (hb : isBlockType stype ≠ 0)
    (vs : List α) (neb d base vi2 : Nat) :
    ∀ (nrb : Nat), vi2 + neb * nrb ≤ vs.length →
    DecodeRow stype ((List.range nrb).map
        (fun i => SpmRowElem.pat (base + i * neb) stype d ((vs.drop (vi2 + i * neb)).take neb)))
      = (List.range (neb * nrb)).map
          (fun k => SpmRowElem.plain (base + k) (vs.getD (vi2 + k) default)) := by
  intro nrb
  induction nrb with
  | zero => intro h; rfl
  | succ m ih =>
    intro h
    have hmul : neb * (m + 1) = neb * m + neb := by ring
    have hmle : vi2 + neb * m ≤ vs.length := by omega
    rw [List.range_succ, List.map_append, DecodeRow_append, ih hmle]
    have hsing : DecodeRow stype ([m].map
          (fun i => SpmRowElem.pat (base + i * neb) stype d ((vs.drop (vi2 + i * neb)).take neb)))
        = (List.range neb).map
            (fun j => SpmRowElem.plain (base + m * neb + j) (vs.getD (vi2 + m * neb + j) default)) := by
      rw [List.map_cons, List.map_nil]
      rw [DecodeRow_pat_self]
      unfold doDecode
      exact doDecodeLoop_block stype hb d neb (vi2 + m * neb) (base + m * neb) vs
        (by have e2 : m * neb = neb * m := Nat.mul_comm m neb
            omega)
    rw [hsing, hmul, List.range_add, List.map_append, List.map_map]
    congr 1
    apply List.map_congr_left
    intro j _
    simp only [Function.comp]
    have e2 : base + (neb * m + j) = base + m * neb + j := by ring
    have e3 : vi2 + (neb * m + j) = vi2 + m * neb + j := by ring
    rw [e2, e3]

/-- Decoding the accumulated output followed by the three regions emitted
for a qualifying delta-1 run (front fill, aligned blocks, back fill)
gives the decoded accumulator and the plain elements of the whole covered
span. -/
theorem DecodeRow_blockRegions [Inhabited α] (stype : SpmIterOrder) (hb : isBlockType stype ≠ 0)
    (vs : List α) (rleStart vi1 sf0 neb nrb sb1 d : Nat) (acc1 : List (SpmRowElem α))
    (hlen : vi1 + sf0 + neb * nrb ≤ vs.length) :
    DecodeRow stype
      (acc1
        ++ (List.range sf0).map (fun i => SpmRowElem.plain (rleStart + i) (vs.getD (vi1 + i) default))
        ++ (List.range nrb).map (fun i => SpmRowElem.pat (rleStart + sf0 + i * neb) stype d
              ((vs.drop (vi1 + sf0 + i * neb)).take neb))
        ++ (List.range sb1).map (fun i => SpmRowElem.plain (rleStart + sf0 + neb * nrb + i)
              (vs.getD (vi1 + sf0 + neb * nrb + i) default)))
      = DecodeRow stype acc1
        ++ (List.range (sf0 + neb * nrb + sb1)).map
            (fun k => SpmRowElem.plain (rleStart + k) (vs.getD (vi1 + k) default)) := by
  rw [DecodeRow_append, DecodeRow_append, DecodeRow_append]
  have hfront : DecodeRow stype ((List.range sf0).map
        (fun i => SpmRowElem.plain (rleStart + i) (vs.getD (vi1 + i) default)))
      = (List.range sf0).map
          (fun i => SpmRowElem.plain (rleStart + i) (vs.getD (vi1 + i) default)) := by
    apply DecodeRow_all_plain
    intro e he
    rw [List.mem_map] at he
    obtain ⟨i, _, hi⟩ := he
    exact ⟨_, _, hi.symm⟩
  have hback : DecodeRow stype ((List.range sb1).map
        (fun i => SpmRowElem.plain (rleStart + sf0 + neb * nrb + i)
          (vs.getD (vi1 + sf0 + neb * nrb + i) default)))
      = (List.range sb1).map
          (fun i => SpmRowElem.plain (rleStart + sf0 + neb * nrb + i)
            (vs.getD (vi1 + sf0 + neb * nrb + i) default)) := by
    apply DecodeRow_all_plain
    intro e he
    rw [List.mem_map] at he
    obtain ⟨i, _, hi⟩ := he
    exact ⟨_, _, hi.symm⟩
  rw [hfront, hback, DecodeRow_blocks stype hb vs neb d (rleStart + sf0) (vi1 + sf0) nrb hlen]
  rw [List.range_add, List.map_append, List.map_map, List.range_add, List.map_append,
    List.map_map]
  simp only [List.append_assoc]
  congr 1
  congr 1
  congr 1
  · apply List.map_congr_left
    intro k _
    simp only [Function.comp]
    have e1 : rleStart + (sf0 + k) = rleStart + sf0 + k := by ring
    have e2 : vi1 + (sf0 + k) = vi1 + sf0 + k := by ring
    rw [e1, e2]
  · apply List.map_congr_left
    intro i _
    simp only [Function.comp]
    have e1 : rleStart + (sf0 + neb * nrb + i) = rleStart + sf0 + neb * nrb + i := by ring
    have e2 : vi1 + (sf0 + neb * nrb + i) = vi1 + sf0 + neb * nrb + i := by ring
    rw [e1, e2]

/-- The head of the run-length encoder output keeps the value of the
current run. -/
theorem RLEncodeGo_head : ∀ (rest : List Nat) (cur : RLE),
    ∃ f tl, RLEncodeGo cur rest = RLE.mk f cur.val :: tl := by
  intro rest
  induction rest with
  | nil => intro cur; exact ⟨cur.freq, [], rfl⟩
  | cons y r ih =>
    intro cur
    rw [RLEncodeGo]
    by_cases hv : cur.val ≠ y
    · rw [if_pos hv]
      exact ⟨cur.freq, RLEncodeGo ⟨1, y⟩ r, rfl⟩
    · rw [if_neg hv]
      obtain ⟨f, tl, h⟩ := ih ⟨cur.freq + 1, cur.val⟩
      exact ⟨f, tl, h⟩

/-- Every run produced by the run-length encoder has a positive
frequency. -/
theorem RLEncodeGo_freq_pos : ∀ (rest : List Nat) (cur : RLE), 1 ≤ cur.freq →
    ∀ x ∈ RLEncodeGo cur rest, 1 ≤ x.freq := by
  intro rest
  induction rest with
  | nil =>
    intro cur hc x hx
    have h : RLEncodeGo cur [] = [cur] := rfl
    rw [h, List.mem_singleton] at hx
    subst hx
    exact hc
  | cons y r ih =>
    intro cur hc x hx
    rw [RLEncodeGo] at hx
    by_cases hv : cur.val ≠ y
    · rw [if_pos hv, List.mem_cons] at hx
      rcases hx with hx | hx
      · subst hx; exact hc
      · exact ih ⟨1, y⟩ (Nat.le_refl 1) x hx
    · rw [if_neg hv] at hx
      exact ih ⟨cur.freq + 1, cur.val⟩ (Nat.le_add_left 1 cur.freq) x hx

/-- Adjacent runs produced by the run-length encoder carry distinct
values. -/
theorem RLEncodeGo_chain : ∀ (rest : List Nat) (cur : RLE),
    List.Chain' (fun a b : RLE => a.val ≠ b.val) (RLEncodeGo cur rest) := by
  intro rest
  induction rest with
  | nil => intro cur; exact List.chain'_singleton cur
  | cons y r ih =>
    intro cur
    rw [RLEncodeGo]
    by_cases hv : cur.val ≠ y
    · rw [if_pos hv]
      obtain ⟨f, tl, h⟩ := RLEncodeGo_head r ⟨1, y⟩
      rw [h, List.chain'_cons]
      exact ⟨hv, by rw [← h]; exact ih ⟨1, y⟩⟩
    · rw [if_neg hv]
      exact ih ⟨cur.freq + 1, cur.val⟩

/-- The flattened length of a run list is the sum of its frequencies. -/
theorem flattenRLE_length (runs : List RLE) :
    (flattenRLE runs).length = (runs.map RLE.freq).sum := by
  unfold flattenRLE
  rw [List.length_flatMap]
  congr 1
  apply List.map_congr_left
  intro r _
  simp

/-- The delta pass preserves the length. -/
theorem DeltaEncodeGo_length : ∀ (l : List Nat) (prev : Nat),
    (DeltaEncodeGo prev l).length = l.length := by
  intro l
  induction l with
  | nil => intro prev; rfl
  | cons y r ih =>
    intro prev
    unfold DeltaEncodeGo
    rw [List.length_cons, List.length_cons, ih y]

/-- DeltaEncode preserves the length. -/
theorem DeltaEncodeV_length (l : List Nat) : (DeltaEncodeV l).length = l.length := by
  cases l with
  | nil => rfl
  | cons x r =>
    unfold DeltaEncodeV
    rw [List.length_cons, List.length_cons, DeltaEncodeGo_length r x]

/-- EncodeRow on a row of plain elements accumulates every coordinate and
value and flushes once through the encoder dispatch. -/
theorem EncodeRowGo_zip [Inhabited α] (dset : List Nat) (mn mx : Nat) (stype : SpmIterOrder) :
    ∀ (cols : List Nat) (vals : List α) (xs : List Nat) (vs : List α) (acc : List (SpmRowElem α)),
    cols.length = vals.length →
    EncodeRowGo dset mn mx stype xs vs acc (List.zipWith SpmRowElem.plain cols vals)
      = if xs ++ cols ≠ [] then doEncodeDispatch dset mn mx stype (xs ++ cols) (vs ++ vals) acc
        else acc := by
  intro cols
  induction cols with
  | nil =>
    intro vals xs vs acc h
    have hv : vals = [] := by
      cases vals with
      | nil => rfl
      | cons a b => simp at h
    subst hv
    show (if xs ≠ [] then doEncodeDispatch dset mn mx stype xs vs acc else acc) = _
    rw [List.append_nil, List.append_nil]
  | cons c cols2 ih =>
    intro vals xs vs acc h
    cases vals with
    | nil => simp at h
    | cons v vals2 =>
      rw [List.zipWith_cons_cons]
      have hstep : EncodeRowGo dset mn mx stype xs vs acc
            (SpmRowElem.plain c v :: List.zipWith SpmRowElem.plain cols2 vals2)
          = EncodeRowGo dset mn mx stype (xs ++ [c]) (vs ++ [v]) acc
            (List.zipWith SpmRowElem.plain cols2 vals2) := rfl
      rw [hstep, ih vals2 (xs ++ [c]) (vs ++ [v]) acc
        (by simp only [List.length_cons] at h; omega)]
      have e1 : xs ++ [c] ++ cols2 = xs ++ c :: cols2 := by simp
      have e2 : vs ++ [v] ++ vals2 = vs ++ v :: vals2 := by simp
      rw [e1, e2]

/-- Decoding the block-encoder run loop output gives the decoded
accumulated output followed by plain elements at all run positions, with
values read off the value list in order. -/
theorem DecodeRow_doEncodeBlockGo [Inhabited α] (stype : SpmIterOrder)
    (hb : isBlockType stype ≠ 0) (dset : List Nat) (maxLimit blockAlign : Nat)
    (hmaxL : 2 * blockAlign ≤ maxLimit) :
    ∀ (runs : List RLE) (col vi : Nat) (vs : List α) (acc : List (SpmRowElem α)),
    (∀ x ∈ runs, 1 ≤ x.freq) →
    List.Chain' (fun a b : RLE => a.val ≠ b.val) runs →
    headColOK col runs →
    vi + (runs.map RLE.freq).sum ≤ vs.length →
    headAnnexOK col vi vs acc runs →
    DecodeRow stype (doEncodeBlockGo dset maxLimit blockAlign stype col vi vs acc runs)
      = DecodeRow stype acc ++ plainsFromPos vs vi (posExpand col runs) := by
  intro runs
  induction runs with
  | nil =>
    intro col vi vs acc _ _ _ _ _
    simp [doEncodeBlockGo, posExpand, plainsFromPos]
  | cons r rs ih =>
    intro col vi vs acc hfreq hchain hcol hlen hannex
    have hcolh : 1 ≤ col + r.val := hcol
    have hannexh : r.val = 1 → col + 1 ≠ 1 →
        1 ≤ vi ∧ ∃ acc2, acc = acc2 ++ [SpmRowElem.plain col (vs.getD (vi - 1) default)] :=
      hannex
    have hfr : 1 ≤ r.freq := hfreq r (List.mem_cons_self r rs)
    have hlen2 : vi + (r.freq + (rs.map RLE.freq).sum) ≤ vs.length := by
      rw [List.map_cons, List.sum_cons] at hlen
      exact hlen
    have hmulsplit : r.val * (r.freq - 1 + 1) = r.val * (r.freq - 1) + r.val := by ring
    have hfr1 : r.freq - 1 + 1 = r.freq := by omega
    rw [hfr1] at hmulsplit
    rw [doEncodeBlockGo]
    simp only []
    set col1 := col + r.val with hcol1
    set sf0 := (if col1 = 1 then 0
        else if (col1 - 2) % blockAlign ≠ 0 then blockAlign - (col1 - 2) % blockAlign else 0)
      with hsf0
    set ne0 := (if col1 = 1 then r.freq else r.freq + 1) with hne0
    set ne1 := (if sf0 < ne0 then ne0 - sf0 else 0) with hne1
    set sb0 := ne1 % blockAlign with hsb0
    set ne2 := (if sb0 < ne1 then ne1 - sb0 else 0) with hne2
    set rleStart := (if col1 ≠ 1 then col1 - 1 else col1) with hrle
    set acc1 := (if col1 ≠ 1 then acc.dropLast else acc) with hacc1
    set vi1 := (if col1 ≠ 1 then vi - 1 else vi) with hvi1
    set maxAl := maxLimit / (2 * blockAlign) * (2 * blockAlign) with hmaxAl
    set nrb0 := ne2 / maxAl with hnrb0
    set neb := min maxAl ne2 with hneb
    set nrb := (if nrb0 = 0 then 1 else nrb0) with hnrb
    set sb1 := (if nrb0 = 0 then sb0 else sb0 + (ne2 - neb * nrb0)) with hsb1
    have hnewcol : col1 + r.val * (r.freq - 1) = col + r.val * r.freq := by omega
    have hvalle : r.val ≤ r.val * r.freq := by
      have h1 := Nat.mul_le_mul_left r.val hfr
      rw [Nat.mul_one] at h1
      exact h1
    have hfreq2 : ∀ x ∈ rs, 1 ≤ x.freq := fun x hx => hfreq x (List.mem_cons_of_mem r hx)
    have hchain2 : List.Chain' (fun a b : RLE => a.val ≠ b.val) rs := hchain.tail
    have hcol2 : headColOK (col + r.val * r.freq) rs := by
      cases rs with
      | nil => trivial
      | cons r2 rs2 =>
        show 1 ≤ col + r.val * r.freq + r2.val
        omega
    have hlen3 : vi + r.freq + (rs.map RLE.freq).sum ≤ vs.length := by omega
    by_cases hq : r.val = 1 ∧ ne2 / blockAlign ∈ dset ∧ 2 * blockAlign ≤ ne2
    · rw [if_pos hq]
      have hval1 : r.val = 1 := hq.1
      have h2A : 2 * blockAlign ≤ ne2 := hq.2.2
      have hne0pos : 1 ≤ ne0 := by
        rw [hne0]
        split <;> omega
      have hkey : sf0 + neb * nrb + sb1 = ne0 := by
        by_cases hA0 : blockAlign = 0
        · have hsf0z : sf0 = 0 := by
            rw [hsf0, hA0]
            split
            · rfl
            · split <;> omega
          have hsb0e : sb0 = ne1 := by rw [hsb0, hA0, Nat.mod_zero]
          have hne2z : ne2 = 0 := by
            rw [hne2, hsb0e]
            split <;> omega
          have hne1e : ne1 = ne0 := by
            rw [hne1, hsf0z]
            split <;> omega
          have hnrb0z : nrb0 = 0 := by rw [hnrb0, hne2z]; simp
          have hnebz : neb = 0 := by rw [hneb, hne2z]; simp
          have hnm : neb * nrb = 0 := by rw [hnebz]; simp
          have hsb1e : sb1 = sb0 := by rw [hsb1, hnrb0z]; simp
          omega
        · have hApos : 0 < blockAlign := by omega
          have hmaxAlpos : 0 < maxAl := by
            rw [hmaxAl]
            have h1 : 1 ≤ maxLimit / (2 * blockAlign) :=
              (Nat.one_le_div_iff (by omega)).mpr hmaxL
            have h2 := Nat.mul_le_mul_right (2 * blockAlign) h1
            rw [Nat.one_mul] at h2
            omega
          have hne2pos : 0 < ne2 := by omega
          have hcase : sb0 < ne1 := by
            by_contra hc
            rw [hne2, if_neg hc] at hne2pos
            omega
          have hne2eq : ne2 = ne1 - sb0 := by rw [hne2, if_pos hcase]
          have hsfcase : sf0 < ne0 := by
            by_contra hc
            rw [hne1, if_neg hc] at hcase
            omega
          have hne1eq : ne1 = ne0 - sf0 := by rw [hne1, if_pos hsfcase]
          by_cases hz : nrb0 = 0
          · have hlt : ne2 < maxAl := by
              by_contra hc
              rw [hnrb0] at hz
              have h1 : 1 ≤ ne2 / maxAl := (Nat.one_le_div_iff hmaxAlpos).mpr (by omega)
              omega
            have hnebe : neb = ne2 := by rw [hneb, Nat.min_eq_right (Nat.le_of_lt hlt)]
            have hnrbe : nrb = 1 := by rw [hnrb, if_pos hz]
            have hsb1e : sb1 = sb0 := by rw [hsb1, if_pos hz]
            have hnm : neb * nrb = ne2 := by rw [hnebe, hnrbe, Nat.mul_one]
            omega
          · have hge : maxAl ≤ ne2 := by
              by_contra hc
              rw [hnrb0] at hz
              exact hz (Nat.div_eq_of_lt (by omega))
            have hnebe : neb = maxAl := by rw [hneb, Nat.min_eq_left hge]
            have hnrbe : nrb = nrb0 := by rw [hnrb, if_neg hz]
            have hsb1e : sb1 = sb0 + (ne2 - neb * nrb0) := by rw [hsb1, if_neg hz]
            have hmulle : neb * nrb0 ≤ ne2 := by
              rw [hnebe, hnrb0, Nat.mul_comm]
              exact Nat.div_mul_le_self ne2 maxAl
            have hnm : neb * nrb = neb * nrb0 := by rw [hnrbe]
            omega
      have hnewvi : vi1 + sf0 + neb * nrb + sb1 = vi + r.freq := by
        by_cases hc1 : col1 = 1
        · have h1 : vi1 = vi := by rw [hvi1, if_neg (by omega)]
          have h2 : ne0 = r.freq := by rw [hne0, if_pos hc1]
          omega
        · have h1 : vi1 = vi - 1 := by rw [hvi1, if_pos hc1]
          have h2 : ne0 = r.freq + 1 := by rw [hne0, if_neg hc1]
          have h3 := (hannexh hval1 (by omega)).1
          omega
      have hlenreg : vi1 + sf0 + neb * nrb ≤ vs.length := by omega
      rw [hnewvi, hnewcol]
      have hannex2 : ∀ acc3 : List (SpmRowElem α),
          headAnnexOK (col + r.val * r.freq) (vi + r.freq) vs acc3 rs := by
        intro acc3
        cases rs with
        | nil => trivial
        | cons r2 rs2 =>
          intro h2 _
          have hne := (List.chain'_cons.mp hchain).1
          rw [hval1, h2] at hne
          exact absurd rfl hne
      rw [ih _ _ _ _ hfreq2 hchain2 hcol2 hlen3 (hannex2 _)]
      rw [DecodeRow_blockRegions stype hb vs rleStart vi1 sf0 neb nrb sb1
        (neb / blockAlign) acc1 hlenreg]
      rw [hkey]
      rw [posExpand, plainsFromPos_append, plainsFromPos_range_map,
        List.length_map, List.length_range]
      by_cases hc1 : col1 = 1
      · have hacc1e : acc1 = acc := by rw [hacc1, if_neg (by omega)]
        have hvi1e : vi1 = vi := by rw [hvi1, if_neg (by omega)]
        have hrlee : rleStart = col1 := by rw [hrle, if_neg (by omega)]
        have hne0e : ne0 = r.freq := by rw [hne0, if_pos hc1]
        rw [hacc1e, hvi1e, hrlee, hne0e, hc1, List.append_assoc]
        congr 1
        congr 1
        apply List.map_congr_left
        intro i _
        have hcol0 : col = 0 := by omega
        have e : col + r.val * (i + 1) = 1 + i := by
          rw [hval1, hcol0]
          omega
        rw [e]
      · have hacc1e : acc1 = acc.dropLast := by rw [hacc1, if_pos hc1]
        have hvi1e : vi1 = vi - 1 := by rw [hvi1, if_pos hc1]
        have hrlee : rleStart = col1 - 1 := by rw [hrle, if_pos hc1]
        have hne0e : ne0 = r.freq + 1 := by rw [hne0, if_neg hc1]
        obtain ⟨hvipos, acc2, hacceq⟩ := hannexh hval1 (by omega)
        have hcolback : col1 - 1 = col := by omega
        rw [hacc1e, hvi1e, hrlee, hne0e, hcolback, hacceq, List.dropLast_concat]
        rw [DecodeRow_append, DecodeRow_plain_single]
        have hsplit : (List.range (r.freq + 1)).map
              (fun k => SpmRowElem.plain (col + k) (vs.getD (vi - 1 + k) default))
            = SpmRowElem.plain col (vs.getD (vi - 1) default)
              :: (List.range r.freq).map
                (fun i => SpmRowElem.plain (col + (i + 1)) (vs.getD (vi - 1 + (i + 1)) default)) := by
          rw [List.range_succ_eq_map, List.map_cons, List.map_map]
          rw [Nat.add_zero, Nat.add_zero]
          congr 1
        rw [hsplit]
        rw [List.append_assoc, List.append_assoc, List.cons_append, List.singleton_append]
        congr 1
        congr 1
        congr 1
        apply List.map_congr_left
        intro i _
        have e1 : col + r.val * (i + 1) = col + (i + 1) := by
          rw [hval1]
          omega
        have e2 : vi - 1 + (i + 1) = vi + i := by omega
        rw [e1, e2]
    · rw [if_neg hq]
      rw [hnewcol]
      have hannex3 : headAnnexOK (col + r.val * r.freq) (vi + r.freq) vs
          (acc ++ (List.range r.freq).map
            (fun i => SpmRowElem.plain (col1 + i * r.val) (vs.getD (vi + i) default))) rs := by
        cases rs with
        | nil => trivial
        | cons r2 rs2 =>
          intro _ _
          refine ⟨by omega, acc ++ (List.range (r.freq - 1)).map
            (fun i => SpmRowElem.plain (col1 + i * r.val) (vs.getD (vi + i) default)), ?_⟩
          have hrange : List.range r.freq = List.range (r.freq - 1) ++ [r.freq - 1] := by
            have h := List.range_succ (r.freq - 1)
            have h2 : Nat.succ (r.freq - 1) = r.freq := by omega
            rw [h2] at h
            exact h
          rw [hrange, List.map_append, List.map_cons, List.map_nil, ← List.append_assoc]
          congr 1
          congr 1
          have hcm : (r.freq - 1) * r.val = r.val * (r.freq - 1) := Nat.mul_comm _ _
          have e1 : col + r.val * r.freq = col1 + (r.freq - 1) * r.val := by omega
          have e2 : vi + r.freq - 1 = vi + (r.freq - 1) := by omega
          rw [e1, e2]
      rw [ih _ _ _ _ hfreq2 hchain2 hcol2 hlen3 hannex3]
      rw [DecodeRow_append]
      have hplains : DecodeRow stype ((List.range r.freq).map
            (fun i => SpmRowElem.plain (col1 + i * r.val) (vs.getD (vi + i) default)))
          = (List.range r.freq).map
            (fun i => SpmRowElem.plain (col1 + i * r.val) (vs.getD (vi + i) default)) := by
        apply DecodeRow_all_plain
        intro e he
        rw [List.mem_map] at he
        obtain ⟨i, _, hi⟩ := he
        exact ⟨_, _, hi.symm⟩
      rw [hplains]
      rw [posExpand, plainsFromPos_append, plainsFromPos_range_map,
        List.length_map, List.length_range]
      rw [List.append_assoc]
      congr 1
      congr 1
      apply List.map_congr_left
      intro i _
      have hms2 : r.val * (i + 1) = r.val * i + r.val := by ring
      have hcm2 : i * r.val = r.val * i := Nat.mul_comm i r.val
      have e1 : col + r.val * (i + 1) = col1 + i * r.val := by omega
      rw [e1]

/-- The block encoder applied to a full monotone positive column list
decodes back to the original plain row. -/
theorem DecodeRow_doEncodeBlock [Inhabited α] (stype : SpmIterOrder) (hb : isBlockType stype ≠ 0)
    (dset : List Nat) (maxLimit blockAlign : Nat) (hmaxL : 2 * blockAlign ≤ maxLimit)
    (cols : List Nat) (vals : List α)
    (hch : List.Chain' (· ≤ ·) cols) (hpos : ∀ c ∈ cols, 1 ≤ c)
    (hlen : cols.length ≤ vals.length) :
    DecodeRow stype (doEncodeBlock dset maxLimit blockAlign stype cols vals [])
      = List.zipWith SpmRowElem.plain cols vals := by
  cases cols with
  | nil => rfl
  | cons c cols2 =>
    unfold doEncodeBlock
    have hruns : RLEncode (DeltaEncodeV (c :: cols2))
        = RLEncodeGo ⟨1, c⟩ (DeltaEncodeGo c cols2) := rfl
    obtain ⟨f, tl, hhead⟩ := RLEncodeGo_head (DeltaEncodeGo c cols2) (⟨1, c⟩ : RLE)
    have hflat : (flattenRLE (RLEncodeGo (⟨1, c⟩ : RLE) (DeltaEncodeGo c cols2))).length
        = (c :: cols2).length := by
      rw [flattenRLE_RLEncodeGo]
      rw [List.length_append, List.length_replicate, DeltaEncodeGo_length]
      show (1 : Nat) + cols2.length = cols2.length + 1
      omega
    have hsum : 0 + ((RLEncodeGo (⟨1, c⟩ : RLE) (DeltaEncodeGo c cols2)).map RLE.freq).sum
        ≤ vals.length := by
      rw [← flattenRLE_length, hflat]
      omega
    have hcolm : headColOK 0 (RLEncodeGo (⟨1, c⟩ : RLE) (DeltaEncodeGo c cols2)) := by
      rw [hhead]
      show 1 ≤ 0 + c
      have := hpos c (List.mem_cons_self c cols2)
      omega
    have hannexm : headAnnexOK 0 0 vals ([] : List (SpmRowElem α))
        (RLEncodeGo (⟨1, c⟩ : RLE) (DeltaEncodeGo c cols2)) := by
      rw [hhead]
      exact fun _ hcontra => absurd rfl hcontra
    rw [hruns]
    rw [DecodeRow_doEncodeBlockGo stype hb dset maxLimit blockAlign hmaxL
      (RLEncodeGo ⟨1, c⟩ (DeltaEncodeGo c cols2)) 0 0 vals []
      (RLEncodeGo_freq_pos (DeltaEncodeGo c cols2) ⟨1, c⟩ (Nat.le_refl 1))
      (RLEncodeGo_chain (DeltaEncodeGo c cols2) ⟨1, c⟩)
      hcolm hsum hannexm]
    rw [← hruns, posExpand_RLEncode_DeltaEncodeV (c :: cols2) hch]
    rw [plainsFromPos_zipWith vals (c :: cols2) 0 (by omega)]
    rw [List.drop_zero]
    rfl

/-- Encoding a plain row with any candidate type and decoding the result
restores the row, for monotone positive column lists that fit the value
list (the block case needs the maximum pattern size to cover one aligned
block pair). -/
theorem DecodeRow_EncodeRow_plains [Inhabited α] (dset : List Nat) (mn mx : Nat)
    (stype : SpmIterOrder) (hmaxL : 2 * isBlockType stype ≤ mx)
    (cols : List Nat) (vals : List α) (hlen : cols.length = vals.length)
    (hch : List.Chain' (· ≤ ·) cols) (hpos : ∀ c ∈ cols, 1 ≤ c) :
    DecodeRow stype (EncodeRow dset mn mx stype (List.zipWith SpmRowElem.plain cols vals))
      = List.zipWith SpmRowElem.plain cols vals := by
  unfold EncodeRow
  rw [EncodeRowGo_zip dset mn mx stype cols vals [] [] [] hlen]
  rw [List.nil_append, List.nil_append]
  by_cases hc : cols = []
  · subst hc
    rw [if_neg (by simp)]
    rfl
  · rw [if_pos hc]
    unfold doEncodeDispatch
    by_cases hbt : isBlockType stype ≠ 0
    · rw [if_pos hbt]
      exact DecodeRow_doEncodeBlock stype hbt dset mx (isBlockType stype) hmaxL cols vals
        hch hpos (le_of_eq hlen)
    · rw [if_neg hbt]
      have hb0 : isBlockType stype = 0 := by omega
      unfold doEncode
      rw [DecodeRow_doEncodeGo stype hb0 dset mn mx (RLEncode (DeltaEncodeV cols)) 0 vals []]
      rw [posExpand_RLEncode_DeltaEncodeV cols hch]
      rfl

/-- The first group of rowsSplit carries the row and first element of the
first triple. -/
theorem rowsSplit_head (t : Triple α) (rest : List (Triple α)) :
    ∃ es more, rowsSplit (t :: rest) = (t.row, SpmRowElem.plain t.col t.val :: es) :: more := by
  rw [rowsSplit]
  cases hsp : rowsSplit rest with
  | nil => exact ⟨[], [], rfl⟩
  | cons p more =>
    rcases p with ⟨r, es⟩
    by_cases ht : t.row = r
    · subst ht
      refine ⟨es, more, ?_⟩
      show (if t.row = t.row then (t.row, SpmRowElem.plain t.col t.val :: es) :: more
          else (t.row, [SpmRowElem.plain t.col t.val]) :: (t.row, es) :: more)
        = (t.row, SpmRowElem.plain t.col t.val :: es) :: more
      rw [if_pos rfl]
    · refine ⟨[], (r, es) :: more, ?_⟩
      show (if t.row = r then (r, SpmRowElem.plain t.col t.val :: es) :: more
          else (t.row, [SpmRowElem.plain t.col t.val]) :: (r, es) :: more)
        = (t.row, [SpmRowElem.plain t.col t.val]) :: (r, es) :: more
      rw [if_neg ht]

/-- Flattening the row groups back recovers the triple list. -/
theorem unsplitRows_rowsSplit : ∀ (ts : List (Triple α)), unsplitRows (rowsSplit ts) = ts := by
  intro ts
  induction ts with
  | nil => rfl
  | cons t rest ih =>
    rw [rowsSplit]
    cases hsp : rowsSplit rest with
    | nil =>
      have hrest : rest = ([] : List (Triple α)) := by
        have h2 := ih
        rw [hsp] at h2
        exact h2.symm
      subst hrest
      rfl
    | cons p more =>
      rcases p with ⟨r, es⟩
      have ih2 : unsplitRows ((r, es) :: more) = rest := by
        rw [← hsp]
        exact ih
      by_cases ht : t.row = r
      · subst ht
        show unsplitRows (if t.row = t.row then (t.row, SpmRowElem.plain t.col t.val :: es) :: more
            else (t.row, [SpmRowElem.plain t.col t.val]) :: (t.row, es) :: more) = t :: rest
        rw [if_pos rfl]
        show t :: unsplitRows ((t.row, es) :: more) = t :: rest
        rw [ih2]
      · show unsplitRows (if t.row = r then (r, SpmRowElem.plain t.col t.val :: es) :: more
            else (t.row, [SpmRowElem.plain t.col t.val]) :: (r, es) :: more) = t :: rest
        rw [if_neg ht]
        show t :: unsplitRows ((r, es) :: more) = t :: rest
        rw [ih2]

/-- On a sorted triple list with positive columns, every group produced
by rowsSplit is a zip of plain elements over a monotone positive column
list. -/
theorem rowsSplit_groups : ∀ (ts : List (Triple α)), List.Sorted tripleLe ts →
    (∀ t ∈ ts, 1 ≤ t.col) →
    ∀ p ∈ rowsSplit ts, ∃ cols vals, p.2 = List.zipWith SpmRowElem.plain cols vals ∧
      cols.length = vals.length ∧ List.Chain' (· ≤ ·) cols ∧ ∀ c ∈ cols, 1 ≤ c := by
  intro ts
  induction ts with
  | nil =>
    intro _ _ p hp
    simp [rowsSplit] at hp
  | cons t rest ih =>
    intro hs hpos p hp
    have hs2 : List.Sorted tripleLe rest := hs.of_cons
    have hpos2 : ∀ x ∈ rest, 1 ≤ x.col := fun x hx => hpos x (List.mem_cons_of_mem t hx)
    have hpost : 1 ≤ t.col := hpos t (List.mem_cons_self t rest)
    rw [rowsSplit] at hp
    cases hsp : rowsSplit rest with
    | nil =>
      rw [hsp] at hp
      simp only [] at hp
      rw [List.mem_singleton] at hp
      subst hp
      refine ⟨[t.col], [t.val], rfl, rfl, List.chain'_singleton _, ?_⟩
      intro c hc
      rw [List.mem_singleton] at hc
      subst hc
      exact hpost
    | cons q more =>
      rcases q with ⟨r, es⟩
      rw [hsp] at hp
      simp only [] at hp
      by_cases ht : t.row = r
      · rw [if_pos ht] at hp
        rw [List.mem_cons] at hp
        rcases hp with hp | hp
        · cases rest with
          | nil => simp [rowsSplit] at hsp
          | cons u rest2 =>
            obtain ⟨es2, more2, hh⟩ := rowsSplit_head u rest2
            rw [hh] at hsp
            injection hsp with h1 h2
            injection h1 with hrow hes
            have hmem : ((r, es) : Nat × List (SpmRowElem α)) ∈ rowsSplit (u :: rest2) := by
              rw [hh, ← hrow, ← hes]
              exact List.mem_cons_self _ _
            obtain ⟨cols, vals, hz, hlen, hch, hpos3⟩ := ih hs2 hpos2 (r, es) hmem
            have hes2 : es = SpmRowElem.plain u.col u.val :: es2 := hes.symm
            rw [hes2] at hz
            cases cols with
            | nil => simp at hz
            | cons c0 cols2 =>
              cases vals with
              | nil => simp at hz
              | cons v0 vals2 =>
                rw [List.zipWith_cons_cons] at hz
                injection hz with hz1 hz2
                injection hz1 with hc0 hv0
                have htu : tripleLe t u :=
                  List.rel_of_sorted_cons hs u (List.mem_cons_self u rest2)
                have htcol : t.col ≤ c0 := by
                  rw [← hc0]
                  unfold tripleLe at htu
                  have hrr : t.row = u.row := by rw [ht, hrow]
                  omega
                refine ⟨t.col :: c0 :: cols2, t.val :: v0 :: vals2, ?_, ?_, ?_, ?_⟩
                · subst hp
                  show SpmRowElem.plain t.col t.val :: es
                    = SpmRowElem.plain t.col t.val :: List.zipWith SpmRowElem.plain
                        (c0 :: cols2) (v0 :: vals2)
                  rw [hes2, List.zipWith_cons_cons, hc0, hv0, hz2]
                · simp only [List.length_cons] at hlen ⊢
                  omega
                · rw [List.chain'_cons]
                  exact ⟨htcol, hch⟩
                · intro c hc
                  rw [List.mem_cons] at hc
                  rcases hc with hc | hc
                  · subst hc; exact hpost
                  · exact hpos3 c hc
        · refine ih hs2 hpos2 p ?_
          rw [hsp]
          exact List.mem_cons_of_mem _ hp
      · rw [if_neg ht] at hp
        rw [List.mem_cons] at hp
        rcases hp with hp | hp
        · subst hp
          refine ⟨[t.col], [t.val], rfl, rfl, List.chain'_singleton _, ?_⟩
          intro c hc
          rw [List.mem_singleton] at hc
          subst hc
          exact hpost
        · refine ih hs2 hpos2 p ?_
          rw [hsp]
          exact hp

/-- C3: for a partition of plain elements only (this is what the per-row
encoder receives from Transform) and every candidate iteration-order
type, encoding every row and decoding it back leaves the multiset of
(row, col, value) triples unchanged.  The coordinate map of the type and
its inverse are parameters, as in the spec; columns after the transform
are 1-based, and for a block type the maximum pattern size must cover one
aligned block pair (the configuration default 254 does for every
supported alignment). -/
theorem c3_encode_decode_restores_partition [Inhabited α]
    (f g : Nat × Nat → Nat × Nat) (dset : List Nat) (minLimit maxLimit : Nat)
    (stype : SpmIterOrder) (ts : List (Triple α))
    (hg : ∀ p, g (f p) = p)
    (hx : ∀ t ∈ ts, 1 ≤ (f (t.row, t.col)).2)
    (hblock : 2 * isBlockType stype ≤ maxLimit) :
    (EncodeDecodePipeline f g dset minLimit maxLimit stype ts).Perm ts := by
  unfold EncodeDecodePipeline
  simp only []
  have hsorted : List.Sorted tripleLe (TransformSort f ts) := by
    unfold TransformSort
    exact List.sorted_insertionSort tripleLe _
  have hposT : ∀ u ∈ TransformSort f ts, 1 ≤ u.col := by
    intro u hu
    unfold TransformSort at hu
    have hperm := List.perm_insertionSort tripleLe (ts.map (mapCoord f))
    have hu2 : u ∈ ts.map (mapCoord f) := hperm.mem_iff.mp hu
    rw [List.mem_map] at hu2
    obtain ⟨t, ht, hmt⟩ := hu2
    rw [← hmt]
    exact hx t ht
  have hrows : (rowsSplit (TransformSort f ts)).map
      (fun p => (p.1, DecodeRow stype (EncodeRow dset minLimit maxLimit stype p.2)))
      = rowsSplit (TransformSort f ts) := by
    have hgood := rowsSplit_groups (TransformSort f ts) hsorted hposT
    conv_rhs => rw [← List.map_id (rowsSplit (TransformSort f ts))]
    apply List.map_congr_left
    intro p hp
    obtain ⟨cols, vals, hz, hlen, hch, hpos3⟩ := hgood p hp
    rcases p with ⟨rr, es⟩
    show (rr, DecodeRow stype (EncodeRow dset minLimit maxLimit stype es)) = (rr, es)
    simp only [] at hz
    rw [hz, DecodeRow_EncodeRow_plains dset minLimit maxLimit stype hblock cols vals
      hlen hch hpos3]
  rw [hrows, unsplitRows_rowsSplit]
  unfold TransformSort
  have hperm := List.perm_insertionSort tripleLe (ts.map (mapCoord f))
  have hmapped := hperm.map (mapCoord g)
  have hcomp : (ts.map (mapCoord f)).map (mapCoord g) = ts := by
    rw [List.map_map]
    conv_rhs => rw [← List.map_id ts]
    apply List.map_congr_left
    intro t _
    show (⟨(g (f (t.row, t.col))).1, (g (f (t.row, t.col))).2, t.val⟩ : Triple α) = t
    rw [hg (t.row, t.col)]
  rw [hcomp] at hmapped
  exact hmapped

theorem c3_encode_decode_restores_partition_witness :
    (∀ p : Nat × Nat, (fun q : Nat × Nat => q) ((fun q : Nat × Nat => q) p) = p) ∧
    (∀ t ∈ ([⟨0, 1, 5⟩, ⟨0, 2, 6⟩, ⟨0, 3, 7⟩, ⟨1, 1, 8⟩] : List (Triple Nat)),
      1 ≤ ((fun q : Nat × Nat => q) (t.row, t.col)).2) ∧
    2 * isBlockType SpmIterOrder.horizontal ≤ 254 ∧
    (EncodeDecodePipeline (fun q : Nat × Nat => q) (fun q : Nat × Nat => q) [1] 4 254
        SpmIterOrder.horizontal
        ([⟨0, 1, 5⟩, ⟨0, 2, 6⟩, ⟨0, 3, 7⟩, ⟨1, 1, 8⟩] : List (Triple Nat))).Perm
      [⟨0, 1, 5⟩, ⟨0, 2, 6⟩, ⟨0, 3, 7⟩, ⟨1, 1, 8⟩] :=
  ⟨fun p => rfl, by decide, by decide,
    c3_encode_decode_restores_partition (fun q => q) (fun q => q) [1] 4 254
      SpmIterOrder.horizontal [⟨0, 1, 5⟩, ⟨0, 2, 6⟩, ⟨0, 3, 7⟩, ⟨1, 1, 8⟩]
      (fun p => rfl) (by decide) (by decide)⟩

end Sparsex
